import Mathlib

/-!
# SimpleVector: a shallow embedding of `simple_vector.h` and `array_ptr.h`

Conventions of the embedding.

* `size_t` values are `Nat`. Every `size_t` computed by the code is a number of
  elements of a live allocation (or at most twice one), so no wrap-around can
  be reached before the allocation itself is impossible.
* A heap block obtained from `new Type[n]` is the `List` of its `n` cells. A
  freshly allocated cell is taken to hold the default value `Type()` of the
  element type (exact for class types; for scalars the code never reads a
  fresh cell before writing it).
* A pointer into a block is its offset from the start of the block, so an
  `Iterator` is the `Nat` offset from `begin()`.
* An access outside the allocated extent is undefined behaviour in C++; it is
  the result `Fault.undefined_behaviour` here. The exception thrown by `At` is
  `Fault.out_of_range`. Allocation failure is not modelled.
* Moving an element is modelled as copying it (value semantics); the moved-from
  cell keeps its value.
* A parameter `const Type& item` or `Type&& item` is a reference: an `ItemRef`, which is
  either an object outside the vector or one of the cells of the vector the member is
  called on. It is read at the point where the source reads it, and
  `std::exchange(item, 0)` writes `0` through it. The new value of an outside object is
  not tracked.
* The element type's `operator==` is a `BEq` instance and its `operator<` a decidable
  `LT` instance; nothing is assumed of them unless a theorem says so.
* The move constructor and move assignment of `ArrayPtr` are not embedded: their
  bodies, `raw_ptr_ = std::exchange(other, nullptr);`, are ill-formed once instantiated,
  and `SimpleVector` never calls them.
-/

namespace SimpleVectorModel

/-- The two ways an operation can fail to deliver a value. -/
inductive Fault where
  | out_of_range
  | undefined_behaviour
deriving DecidableEq, Repr

/-! ## `array_ptr.h` -/

/-- `ArrayPtr<Type>`: the single field `raw_ptr_`; `none` is `nullptr`, `some cells`
is a pointer to a block holding `cells`. -/
structure ArrayPtr (T : Type) where
  raw_ptr_ : Option (List T)
deriving DecidableEq, Repr

namespace ArrayPtr

variable {T : Type}

/-- `ArrayPtr() = default`: `raw_ptr_ = nullptr`. -/
def empty : ArrayPtr T := ⟨none⟩

/-- `explicit ArrayPtr(size_t size)`: `nullptr` for `size == 0`, else `new Type[size]`. -/
def alloc [Inhabited T] (size : Nat) : ArrayPtr T :=
  if size = 0 then ⟨none⟩ else ⟨some (List.replicate size default)⟩

/-- The cells reachable through the pointer: none at all through `nullptr`. -/
def cells (a : ArrayPtr T) : List T :=
  match a.raw_ptr_ with
  | none => []
  | some l => l

/-- Number of element slots of the block the pointer owns. -/
def extent (a : ArrayPtr T) : Nat := a.cells.length

/-- Reading `*(raw_ptr_ + index)` (`operator[]` used as an rvalue). -/
def load (a : ArrayPtr T) (index : Nat) : Except Fault T :=
  match a.raw_ptr_ with
  | none => .error .undefined_behaviour
  | some l =>
    match l[index]? with
    | some x => .ok x
    | none => .error .undefined_behaviour

/-- Writing `*(raw_ptr_ + index) = value` (`operator[]` used as an lvalue). -/
def store (a : ArrayPtr T) (index : Nat) (value : T) : Except Fault (ArrayPtr T) :=
  match a.raw_ptr_ with
  | none => .error .undefined_behaviour
  | some l =>
    if index < l.length then .ok ⟨some (l.set index value)⟩
    else .error .undefined_behaviour

/-- `Get()`: the raw pointer. -/
def Get (a : ArrayPtr T) : Option (List T) := a.raw_ptr_

/-- `swap(ArrayPtr& other)`: the pair is (this, other) after the call. -/
def swap (a other : ArrayPtr T) : ArrayPtr T × ArrayPtr T := (other, a)

end ArrayPtr

/-! ## `<algorithm>` on pointer ranges -/

section Algorithms

variable {T : Type}

/-- Loop of `std::copy` / `std::move` between two different blocks:
`n` times `*d_first++ = *first++`. -/
def copy_loop (src : ArrayPtr T) (first : Nat) (dst : ArrayPtr T) (d_first : Nat) :
    Nat → Except Fault (ArrayPtr T)
  | 0 => .ok dst
  | n + 1 => do
    let x ← src.load first
    let dst1 ← dst.store d_first x
    copy_loop src (first + 1) dst1 (d_first + 1) n

/-- `std::copy(first, last, d_first)` with `[first, last)` in block `src` and
`d_first` in another block `dst`; the result is the destination block. -/
def std_copy (src : ArrayPtr T) (first last : Nat) (dst : ArrayPtr T) (d_first : Nat) :
    Except Fault (ArrayPtr T) :=
  if first ≤ last then copy_loop src first dst d_first (last - first)
  else .error .undefined_behaviour

/-- `std::move(first, last, d_first)` between two different blocks. -/
def std_move (src : ArrayPtr T) (first last : Nat) (dst : ArrayPtr T) (d_first : Nat) :
    Except Fault (ArrayPtr T) :=
  std_copy src first last dst d_first

/-- Loop of `std::move(first, last, d_first)` when all three pointers are in the
same block: each read sees the writes made before it. -/
def move_within_loop (buf : ArrayPtr T) (first d_first : Nat) :
    Nat → Except Fault (ArrayPtr T)
  | 0 => .ok buf
  | n + 1 => do
    let x ← buf.load first
    let buf1 ← buf.store d_first x
    move_within_loop buf1 (first + 1) (d_first + 1) n

/-- `std::move(first, last, d_first)` inside one block. -/
def std_move_within (buf : ArrayPtr T) (first last d_first : Nat) :
    Except Fault (ArrayPtr T) :=
  if first ≤ last then move_within_loop buf first d_first (last - first)
  else .error .undefined_behaviour

/-- Loop of `std::copy_backward` / `std::move_backward` inside one block:
`n` times `*(--d_last) = *(--last)`. -/
def copy_backward_loop (buf : ArrayPtr T) (last d_last : Nat) :
    Nat → Except Fault (ArrayPtr T)
  | 0 => .ok buf
  | n + 1 =>
    if last = 0 ∨ d_last = 0 then .error .undefined_behaviour
    else do
      let x ← buf.load (last - 1)
      let buf1 ← buf.store (d_last - 1) x
      copy_backward_loop buf1 (last - 1) (d_last - 1) n

/-- `std::copy_backward(first, last, d_last)` inside one block. -/
def std_copy_backward (buf : ArrayPtr T) (first last d_last : Nat) :
    Except Fault (ArrayPtr T) :=
  if first ≤ last then copy_backward_loop buf last d_last (last - first)
  else .error .undefined_behaviour

/-- `std::move_backward(first, last, d_last)` inside one block. -/
def std_move_backward (buf : ArrayPtr T) (first last d_last : Nat) :
    Except Fault (ArrayPtr T) :=
  std_copy_backward buf first last d_last

/-- Loop `for (it = first; it != last; ++it) *it = value`, the body of `std::fill`
and of the value-initialising loops of the constructors and of `Resize`. -/
def fill_loop (buf : ArrayPtr T) (first : Nat) (value : T) :
    Nat → Except Fault (ArrayPtr T)
  | 0 => .ok buf
  | n + 1 => do
    let buf1 ← buf.store first value
    fill_loop buf1 (first + 1) value n

/-- `std::fill(first, last, value)`. -/
def std_fill (buf : ArrayPtr T) (first last : Nat) (value : T) :
    Except Fault (ArrayPtr T) :=
  if first ≤ last then fill_loop buf first value (last - first)
  else .error .undefined_behaviour

/-- Loop of `std::copy(init.begin(), init.end(), d_first)` from an initializer list. -/
def copy_list_loop : List T → ArrayPtr T → Nat → Except Fault (ArrayPtr T)
  | [], dst, _ => .ok dst
  | x :: xs, dst, d_first => do
    let dst1 ← dst.store d_first x
    copy_list_loop xs dst1 (d_first + 1)

/-- Loop of `std::equal(first1, last1, first2)`: `n` times
`if (!(*first1 == *first2)) return false;`, then `return true`. -/
def equal_loop [BEq T] (a : ArrayPtr T) (first1 : Nat) (b : ArrayPtr T) (first2 : Nat) :
    Nat → Except Fault Bool
  | 0 => .ok true
  | n + 1 => do
    let x ← a.load first1
    let y ← b.load first2
    if !(x == y) then pure false
    else equal_loop a (first1 + 1) b (first2 + 1) n

/-- `std::equal(first1, last1, first2)` with `[first1, last1)` in block `a` and `first2`
in block `b`. -/
def std_equal [BEq T] (a : ArrayPtr T) (first1 last1 : Nat) (b : ArrayPtr T) (first2 : Nat) :
    Except Fault Bool :=
  if first1 ≤ last1 then equal_loop a first1 b first2 (last1 - first1)
  else .error .undefined_behaviour

/-- Loop of `std::lexicographical_compare(first1, last1, first2, last2)`; the last
argument is the number of elements left in `[first1, last1)`:
`for (; first1 != last1 && first2 != last2; ++first1, ++first2) {`
`if (*first1 < *first2) return true; if (*first2 < *first1) return false; }`
`return first1 == last1 && first2 != last2;`. -/
def lexicographical_compare_loop [LT T] [DecidableRel (α := T) (· < ·)]
    (a : ArrayPtr T) (first1 : Nat) (b : ArrayPtr T) (first2 last2 : Nat) :
    Nat → Except Fault Bool
  | 0 => .ok (decide (first2 ≠ last2))
  | n + 1 =>
    if first2 = last2 then .ok false
    else do
      let x ← a.load first1
      let y ← b.load first2
      if x < y then pure true
      else if y < x then pure false
      else lexicographical_compare_loop a (first1 + 1) b (first2 + 1) last2 n

/-- `std::lexicographical_compare(first1, last1, first2, last2)` with `[first1, last1)`
in block `a` and `[first2, last2)` in block `b`. -/
def std_lexicographical_compare [LT T] [DecidableRel (α := T) (· < ·)]
    (a : ArrayPtr T) (first1 last1 : Nat) (b : ArrayPtr T) (first2 last2 : Nat) :
    Except Fault Bool :=
  if first1 ≤ last1 then lexicographical_compare_loop a first1 b first2 last2 (last1 - first1)
  else .error .undefined_behaviour

end Algorithms

/-! ## References to elements -/

/-- What a parameter `const Type& item` or `Type&& item` of a member of a vector refers
to: an object outside the vector's block, holding `value`, or the cell
`simple_vector_[index]` of the vector the member is called on. -/
inductive ItemRef (T : Type) where
  | external (value : T)
  | element (index : Nat)
deriving DecidableEq, Repr

namespace ItemRef

variable {T : Type}

/-- Reading `item` while the block of the vector is `buf`. -/
def read (item : ItemRef T) (buf : ArrayPtr T) : Except Fault T :=
  match item with
  | external value => .ok value
  | element index => buf.load index

/-- `std::exchange(item, 0)` while the block of the vector is `buf`: the old value of
`item`, and the block after `item = 0`. -/
def exchange [Zero T] (item : ItemRef T) (buf : ArrayPtr T) : Except Fault (T × ArrayPtr T) :=
  match item with
  | external value => .ok (value, buf)
  | element index => do
    let old_value ← buf.load index
    let buf1 ← buf.store index 0
    pure (old_value, buf1)

end ItemRef

/-- An element type with a value that is not equal to itself, as `double` has NaN:
`operator==` is `false` as soon as one side is `nan`. Its default value is the number 0. -/
inductive MaybeNaN where
  | nan
  | num (n : Nat)
deriving Repr

instance : BEq MaybeNaN where
  beq
    | .num a, .num b => a == b
    | _, _ => false

instance : Inhabited MaybeNaN := ⟨.num 0⟩

/-! ## `simple_vector.h` -/

/-- `SimpleVector<Type>`: the three private fields. -/
structure SimpleVector (T : Type) where
  simple_vector_ : ArrayPtr T
  size_ : Nat
  capacity_ : Nat
deriving DecidableEq, Repr

namespace SimpleVector

variable {T : Type}

/-- `SimpleVector() noexcept = default`. -/
def mk_default : SimpleVector T := ⟨ArrayPtr.empty, 0, 0⟩

/-- `explicit SimpleVector(size_t size)`. -/
def mk_size [Inhabited T] (size : Nat) : Except Fault (SimpleVector T) := do
  let tmp : ArrayPtr T := ArrayPtr.alloc size
  let tmp ← fill_loop tmp 0 default size
  let (simple_vector_, _) := ArrayPtr.swap ArrayPtr.empty tmp
  pure ⟨simple_vector_, size, size⟩

/-- `SimpleVector(size_t size, const Type& value)`. -/
def mk_fill [Inhabited T] (size : Nat) (value : T) : Except Fault (SimpleVector T) := do
  let tmp : ArrayPtr T := ArrayPtr.alloc size
  let tmp ← std_fill tmp 0 size value
  let (simple_vector_, _) := ArrayPtr.swap ArrayPtr.empty tmp
  pure ⟨simple_vector_, size, size⟩

/-- `SimpleVector(std::initializer_list<Type> init)`. -/
def mk_list [Inhabited T] (init : List T) : Except Fault (SimpleVector T) := do
  let size_ := init.length
  let capacity_ := size_
  let tmp : ArrayPtr T := ArrayPtr.alloc size_
  let tmp ← copy_list_loop init tmp 0
  let (simple_vector_, _) := ArrayPtr.swap ArrayPtr.empty tmp
  pure ⟨simple_vector_, size_, capacity_⟩

/-- `GetSize()`. -/
def GetSize (v : SimpleVector T) : Nat := v.size_

/-- `GetCapacity()`. -/
def GetCapacity (v : SimpleVector T) : Nat := v.capacity_

/-- `IsEmpty()`. -/
def IsEmpty (v : SimpleVector T) : Bool := v.size_ == 0

/-- `begin()`: offset 0 of the block. -/
def begin_ (_v : SimpleVector T) : Nat := 0

/-- `end()`: `std::next(simple_vector_.Get(), size_)`. -/
def end_ (v : SimpleVector T) : Nat := v.size_

/-- `SimpleVector(const SimpleVector& other)`. -/
def mk_copy [Inhabited T] (other : SimpleVector T) : Except Fault (SimpleVector T) := do
  let tmp : ArrayPtr T := ArrayPtr.alloc other.GetSize
  let tmp ← std_copy other.simple_vector_ other.begin_ other.end_ tmp 0
  let (simple_vector_, _) := ArrayPtr.swap ArrayPtr.empty tmp
  pure ⟨simple_vector_, other.size_, other.capacity_⟩

/-- `SimpleVector(ReserveProxyObj cap)`; the proxy carries the one number `cap`. -/
def mk_reserve [Inhabited T] (cap : Nat) : SimpleVector T :=
  let tmp : ArrayPtr T := ArrayPtr.alloc cap
  let (simple_vector_, _) := ArrayPtr.swap ArrayPtr.empty tmp
  ⟨simple_vector_, 0, cap⟩

/-- `swap(SimpleVector& other)`: the pair is (this, other) after the call. -/
def swap (v other : SimpleVector T) : SimpleVector T × SimpleVector T :=
  let (p, q) := ArrayPtr.swap v.simple_vector_ other.simple_vector_
  (⟨p, other.size_, other.capacity_⟩, ⟨q, v.size_, v.capacity_⟩)

/-- `operator=(const SimpleVector& rhs)` when `this` and `rhs` are different objects. -/
def assign [Inhabited T] (v rhs : SimpleVector T) : Except Fault (SimpleVector T) := do
  let tmp ← mk_copy rhs
  let (v1, _) := swap v tmp
  pure v1

/-- `operator=(const SimpleVector& rhs)` when `&*this == &rhs`: returns `*this`. -/
def assign_self (v : SimpleVector T) : SimpleVector T := v

/-- `SimpleVector(SimpleVector&& other)`: the pair is (this, other) after the call. -/
def mk_move [Inhabited T] (other : SimpleVector T) :
    Except Fault (SimpleVector T × SimpleVector T) := do
  let tmp ← mk_size (T := T) other.GetSize
  let tmp_buf ← std_move other.simple_vector_ other.begin_ other.end_ tmp.simple_vector_ tmp.begin_
  let tmp : SimpleVector T := { tmp with simple_vector_ := tmp_buf }
  let (v, _) := swap mk_default tmp
  pure (v, { other with size_ := 0 })

/-- `operator[](size_t index)` read. -/
def index (v : SimpleVector T) (i : Nat) : Except Fault T := v.simple_vector_.load i

/-- `PushBack(const Type& item)`. In the growing branch `item` is read while the vector
still owns its old block. -/
def PushBack [Inhabited T] (v : SimpleVector T) (item : ItemRef T) :
    Except Fault (SimpleVector T) :=
  if v.size_ < v.capacity_ then do
    let x ← item.read v.simple_vector_
    let buf ← v.simple_vector_.store v.size_ x
    pure { v with simple_vector_ := buf, size_ := v.size_ + 1 }
  else do
    let new_capacity := if v.capacity_ = 0 then 1 else v.capacity_ * 2
    let tmp ← mk_size (T := T) new_capacity
    let tmp_buf ← std_copy v.simple_vector_ v.begin_ v.end_ tmp.simple_vector_ tmp.begin_
    let x ← item.read v.simple_vector_
    let tmp_buf ← tmp_buf.store v.size_ x
    let (simple_vector_, _) := ArrayPtr.swap v.simple_vector_ tmp_buf
    pure ⟨simple_vector_, v.size_ + 1, new_capacity⟩

/-- `PushBack(Type&& item)`. In the growing branch `std::exchange(item, 0)` writes to the
old block, which `tmp` takes in the swap. -/
def PushBack_move [Inhabited T] [Zero T] (v : SimpleVector T) (item : ItemRef T) :
    Except Fault (SimpleVector T) :=
  if v.size_ < v.capacity_ then do
    let (x, buf) ← item.exchange v.simple_vector_
    let buf ← buf.store v.size_ x
    pure { v with simple_vector_ := buf, size_ := v.size_ + 1 }
  else do
    let new_capacity := if v.capacity_ = 0 then 1 else v.capacity_ * 2
    let tmp ← mk_size (T := T) new_capacity
    let tmp_buf ← std_move v.simple_vector_ v.begin_ v.end_ tmp.simple_vector_ tmp.begin_
    let (x, old_buf) ← item.exchange v.simple_vector_
    let tmp_buf ← tmp_buf.store v.size_ x
    let (simple_vector_, _) := ArrayPtr.swap old_buf tmp_buf
    pure ⟨simple_vector_, v.size_ + 1, new_capacity⟩

/-- `Insert(ConstIterator pos, const Type& item)`; `pos` is the offset `pos - begin()`.
The result is the vector after the call and the offset of the returned iterator in
the block the vector owns after the call. In the in-place branch `item` is read after
`std::copy_backward` has shifted the elements. -/
def Insert [Inhabited T] (v : SimpleVector T) (pos : Nat) (item : ItemRef T) :
    Except Fault (SimpleVector T × Nat) :=
  let new_pos := pos - v.begin_
  if v.size_ < v.capacity_ then do
    let buf ← std_copy_backward v.simple_vector_ new_pos v.end_ (v.end_ + 1)
    let x ← item.read buf
    let buf ← buf.store new_pos x
    pure ({ v with simple_vector_ := buf, size_ := v.size_ + 1 }, new_pos)
  else do
    let new_capacity := if v.capacity_ = 0 then 1 else v.capacity_ * 2
    let tmp ← mk_size (T := T) new_capacity
    let new_pos_tmp := tmp.begin_ + (new_pos - v.begin_)
    let tmp_buf ← std_copy v.simple_vector_ v.begin_ new_pos tmp.simple_vector_ tmp.begin_
    let tmp_buf ← std_copy v.simple_vector_ new_pos v.end_ tmp_buf (new_pos_tmp + 1)
    let x ← item.read v.simple_vector_
    let tmp_buf ← tmp_buf.store new_pos_tmp x
    let new_pos := new_pos_tmp
    let (simple_vector_, _) := ArrayPtr.swap v.simple_vector_ tmp_buf
    pure (⟨simple_vector_, v.size_ + 1, new_capacity⟩, new_pos)

/-- `Insert(ConstIterator pos, Type&& item)`. In the in-place branch
`std::exchange(item, 0)` runs after `std::move_backward`, on the shifted block. -/
def Insert_move [Inhabited T] [Zero T] (v : SimpleVector T) (pos : Nat) (item : ItemRef T) :
    Except Fault (SimpleVector T × Nat) :=
  let new_pos := pos - v.begin_
  if v.size_ < v.capacity_ then do
    let buf ← std_move_backward v.simple_vector_ new_pos v.end_ (v.end_ + 1)
    let (x, buf) ← item.exchange buf
    let buf ← buf.store new_pos x
    pure ({ v with simple_vector_ := buf, size_ := v.size_ + 1 }, new_pos)
  else do
    let new_capacity := if v.capacity_ = 0 then 1 else v.capacity_ * 2
    let tmp ← mk_size (T := T) new_capacity
    let new_pos_tmp := tmp.begin_ + (new_pos - v.begin_)
    let tmp_buf ← std_move v.simple_vector_ v.begin_ new_pos tmp.simple_vector_ tmp.begin_
    let tmp_buf ← std_move v.simple_vector_ new_pos v.end_ tmp_buf (new_pos_tmp + 1)
    let (x, old_buf) ← item.exchange v.simple_vector_
    let tmp_buf ← tmp_buf.store new_pos_tmp x
    let new_pos := new_pos_tmp
    let (simple_vector_, _) := ArrayPtr.swap old_buf tmp_buf
    pure (⟨simple_vector_, v.size_ + 1, new_capacity⟩, new_pos)

/-- `PopBack()`. -/
def PopBack (v : SimpleVector T) : SimpleVector T :=
  { v with size_ := if v.size_ = 0 then 0 else v.size_ - 1 }

/-- `Erase(ConstIterator pos)`; `pos` is the offset `pos - begin()`. The result is the
vector after the call and the offset of the returned iterator. `--size_` on a 64-bit
`size_t` wraps at zero. -/
def Erase (v : SimpleVector T) (pos : Nat) : Except Fault (SimpleVector T × Nat) := do
  let new_pos := pos - v.begin_
  let buf ← std_move_within v.simple_vector_ (new_pos + 1) v.end_ new_pos
  pure ({ v with simple_vector_ := buf,
                 size_ := if v.size_ = 0 then 2 ^ 64 - 1 else v.size_ - 1 }, new_pos)

/-- `At(size_t index)`. -/
def At (v : SimpleVector T) (index : Nat) : Except Fault T :=
  if index ≥ v.size_ then .error .out_of_range
  else v.simple_vector_.load index

/-- `At(size_t index) const`. -/
def At_const (v : SimpleVector T) (index : Nat) : Except Fault T :=
  if index ≥ v.size_ then .error .out_of_range
  else v.simple_vector_.load index

/-- `Clear()`. -/
def Clear (v : SimpleVector T) : SimpleVector T := { v with size_ := 0 }

/-- `Resize(size_t new_size)`. -/
def Resize [Inhabited T] (v : SimpleVector T) (new_size : Nat) :
    Except Fault (SimpleVector T) :=
  if new_size ≤ v.size_ then pure { v with size_ := new_size }
  else do
    let tmp : ArrayPtr T := ArrayPtr.alloc new_size
    let end_of_tmp := new_size
    let tmp ← std_move v.simple_vector_ v.begin_ v.end_ tmp 0
    let it := v.end_ - v.begin_
    let tmp ← std_fill tmp it end_of_tmp default
    let (simple_vector_, _) := ArrayPtr.swap v.simple_vector_ tmp
    pure ⟨simple_vector_, new_size, new_size⟩

/-- `Reserve(size_t new_capacity)`. -/
def Reserve [Inhabited T] (v : SimpleVector T) (new_capacity : Nat) :
    Except Fault (SimpleVector T) :=
  if new_capacity ≤ v.capacity_ then pure v
  else do
    let tmp : ArrayPtr T := ArrayPtr.alloc new_capacity
    let tmp ← if v.size_ ≠ 0 then std_move v.simple_vector_ v.begin_ v.end_ tmp 0 else pure tmp
    let (simple_vector_, _) := ArrayPtr.swap v.simple_vector_ tmp
    pure { v with simple_vector_ := simple_vector_, capacity_ := new_capacity }

/-- `operator==(const SimpleVector&, const SimpleVector&)`. -/
def operator_eq [BEq T] (lhs rhs : SimpleVector T) : Except Fault Bool :=
  if lhs.GetSize ≠ rhs.GetSize then pure false
  else std_equal lhs.simple_vector_ lhs.begin_ lhs.end_ rhs.simple_vector_ rhs.begin_

/-- `operator!=`: `!(lhs == rhs)`. -/
def operator_ne [BEq T] (lhs rhs : SimpleVector T) : Except Fault Bool := do
  let r ← operator_eq lhs rhs
  pure (!r)

/-- `operator<`. -/
def operator_lt [LT T] [DecidableRel (α := T) (· < ·)] (lhs rhs : SimpleVector T) :
    Except Fault Bool :=
  std_lexicographical_compare lhs.simple_vector_ lhs.begin_ lhs.end_
    rhs.simple_vector_ rhs.begin_ rhs.end_

/-- `operator<=`: `(lhs < rhs) || (lhs == rhs)`, the right operand evaluated only when the
left one is false. -/
def operator_le [BEq T] [LT T] [DecidableRel (α := T) (· < ·)] (lhs rhs : SimpleVector T) :
    Except Fault Bool := do
  let l ← operator_lt lhs rhs
  if l then pure true else operator_eq lhs rhs

/-- `operator>`: `rhs < lhs`. -/
def operator_gt [LT T] [DecidableRel (α := T) (· < ·)] (lhs rhs : SimpleVector T) :
    Except Fault Bool :=
  operator_lt rhs lhs

/-- `operator>=`: `!(lhs < rhs)`. -/
def operator_ge [LT T] [DecidableRel (α := T) (· < ·)] (lhs rhs : SimpleVector T) :
    Except Fault Bool := do
  let l ← operator_lt lhs rhs
  pure (!l)

/-- A caller's sequence `for (const auto& x : items) v.PushBack(x);` over values `items`
held outside the vector. -/
def PushBack_each [Inhabited T] : SimpleVector T → List T → Except Fault (SimpleVector T)
  | v, [] => .ok v
  | v, x :: xs => do
    let v1 ← PushBack v (.external x)
    PushBack_each v1 xs

/-! ### Abstraction -/

/-- The logical contents: the cells at indices `[0, size_)`. -/
def toList (v : SimpleVector T) : List T := v.simple_vector_.cells.take v.size_

/-- What the loop of `std::lexicographical_compare` computes, read on two lists instead of
two pointer ranges. -/
def lexLess [LT T] [DecidableRel (α := T) (· < ·)] : List T → List T → Bool
  | [], [] => false
  | [], _ :: _ => true
  | _ :: _, [] => false
  | x :: xs, y :: ys => if x < y then true else if y < x then false else lexLess xs ys

/-- Well-formedness: `size_ ≤ capacity_` and `capacity_` is the number of element
slots of the owned block. -/
def wf (v : SimpleVector T) : Prop :=
  v.size_ ≤ v.capacity_ ∧ v.capacity_ = v.simple_vector_.extent

instance (v : SimpleVector T) : Decidable v.wf :=
  inferInstanceAs (Decidable (v.size_ ≤ v.capacity_ ∧ v.capacity_ = v.simple_vector_.extent))

end SimpleVector

end SimpleVectorModel

/-! ## Lemmas on the block and on the pointer-range loops -/

namespace SimpleVectorModel

namespace ArrayPtr

variable {T : Type}

theorem cells_alloc [Inhabited T] (n : Nat) :
    (alloc n : ArrayPtr T).cells = List.replicate n default := by
  unfold alloc cells
  split_ifs with h <;> simp [h]

theorem cells_empty : (empty : ArrayPtr T).cells = [] := rfl

theorem cells_some (l : List T) : (⟨some l⟩ : ArrayPtr T).cells = l := rfl

theorem load_of_lt {a : ArrayPtr T} {i : Nat} (h : i < a.cells.length) :
    a.load i = .ok (a.cells[i]) := by
  unfold load
  unfold cells at h
  cases hr : a.raw_ptr_ with
  | none => simp [hr] at h
  | some l =>
    simp only [hr] at h
    simp [cells, hr, List.getElem?_eq_getElem h]

theorem store_of_lt {a : ArrayPtr T} {i : Nat} (v : T) (h : i < a.cells.length) :
    a.store i v = .ok ⟨some (a.cells.set i v)⟩ := by
  unfold store
  unfold cells at h
  cases hr : a.raw_ptr_ with
  | none => simp [hr] at h
  | some l =>
    simp only [hr] at h
    simp [cells, hr, h]

theorem load_of_ge {a : ArrayPtr T} {i : Nat} (h : a.cells.length ≤ i) :
    a.load i = .error .undefined_behaviour := by
  unfold load
  unfold cells at h
  cases hr : a.raw_ptr_ with
  | none => rfl
  | some l =>
    simp only [hr] at h
    simp [List.getElem?_eq_none h]

theorem store_of_ge {a : ArrayPtr T} {i : Nat} (v : T) (h : a.cells.length ≤ i) :
    a.store i v = .error .undefined_behaviour := by
  unfold store
  unfold cells at h
  cases hr : a.raw_ptr_ with
  | none => rfl
  | some l =>
    simp only [hr] at h
    simp [Nat.not_lt.mpr h]

end ArrayPtr

section AlgorithmLemmas

variable {T : Type}

theorem copy_loop_spec (src : ArrayPtr T) (n : Nat) :
    ∀ (first : Nat) (dst : ArrayPtr T) (d : Nat),
      first + n ≤ src.cells.length → d + n ≤ dst.cells.length →
      ∃ r, copy_loop src first dst d n = .ok r ∧
        r.cells.length = dst.cells.length ∧
        ∀ i, r.cells[i]? =
          if d ≤ i ∧ i < d + n then src.cells[first + (i - d)]? else dst.cells[i]? := by
  induction n with
  | zero =>
    intro first dst d _ _
    refine ⟨dst, rfl, rfl, ?_⟩
    intro i
    have : ¬ (d ≤ i ∧ i < d) := by omega
    simp [this]
  | succ n ih =>
    intro first dst d hs hd
    have h1 : first < src.cells.length := by omega
    have h2 : d < dst.cells.length := by omega
    obtain ⟨r, hr, hlen, hget⟩ := ih (first + 1) ⟨some (dst.cells.set d src.cells[first])⟩ (d + 1)
      (by omega) (by rw [ArrayPtr.cells_some, List.length_set]; omega)
    rw [ArrayPtr.cells_some] at hlen hget
    refine ⟨r, ?_, ?_, ?_⟩
    · simp only [copy_loop, ArrayPtr.load_of_lt h1, ArrayPtr.store_of_lt _ h2, bind, Except.bind]
      exact hr
    · simpa using hlen
    · intro i
      rw [hget i]
      simp only [List.getElem?_set]
      by_cases hi : d = i
      · subst hi
        simp [h2, List.getElem?_eq_getElem h1]
      · by_cases h3 : d + 1 ≤ i ∧ i < d + 1 + n
        · have h4 : d ≤ i ∧ i < d + (n + 1) := by omega
          have h5 : first + 1 + (i - (d + 1)) = first + (i - d) := by omega
          simp [h3, h4, h5]
        · have h4 : ¬ (d ≤ i ∧ i < d + (n + 1)) := by omega
          simp [h3, h4, hi]

theorem move_within_loop_spec (n : Nat) :
    ∀ (buf : ArrayPtr T) (first d : Nat),
      d < first → first + n ≤ buf.cells.length →
      ∃ r, move_within_loop buf first d n = .ok r ∧
        r.cells.length = buf.cells.length ∧
        ∀ i, r.cells[i]? =
          if d ≤ i ∧ i < d + n then buf.cells[first + (i - d)]? else buf.cells[i]? := by
  induction n with
  | zero =>
    intro buf first d _ _
    refine ⟨buf, rfl, rfl, ?_⟩
    intro i
    have : ¬ (d ≤ i ∧ i < d) := by omega
    simp [this]
  | succ n ih =>
    intro buf first d hlt hs
    have h1 : first < buf.cells.length := by omega
    have h2 : d < buf.cells.length := by omega
    obtain ⟨r, hr, hlen, hget⟩ := ih ⟨some (buf.cells.set d buf.cells[first])⟩ (first + 1) (d + 1)
      (by omega) (by rw [ArrayPtr.cells_some, List.length_set]; omega)
    rw [ArrayPtr.cells_some] at hlen hget
    refine ⟨r, ?_, ?_, ?_⟩
    · simp only [move_within_loop, ArrayPtr.load_of_lt h1, ArrayPtr.store_of_lt _ h2, bind,
        Except.bind]
      exact hr
    · simpa using hlen
    · intro i
      rw [hget i]
      simp only [List.getElem?_set]
      by_cases hi : d = i
      · subst hi
        simp [h2, List.getElem?_eq_getElem h1]
      · by_cases h3 : d + 1 ≤ i ∧ i < d + 1 + n
        · have h4 : d ≤ i ∧ i < d + (n + 1) := by omega
          have h5 : first + 1 + (i - (d + 1)) = first + (i - d) := by omega
          have h6 : d ≠ first + (i - d) := by omega
          simp [h3, h4, h5, h6]
        · have h4 : ¬ (d ≤ i ∧ i < d + (n + 1)) := by omega
          simp [h3, h4, hi]

theorem copy_backward_loop_spec (n : Nat) :
    ∀ (buf : ArrayPtr T) (last d_last : Nat),
      last < d_last → n ≤ last → d_last ≤ buf.cells.length →
      ∃ r, copy_backward_loop buf last d_last n = .ok r ∧
        r.cells.length = buf.cells.length ∧
        ∀ i, r.cells[i]? =
          if d_last - n ≤ i ∧ i < d_last then buf.cells[i - (d_last - last)]?
          else buf.cells[i]? := by
  induction n with
  | zero =>
    intro buf last d_last _ _ _
    refine ⟨buf, rfl, rfl, ?_⟩
    intro i
    have : ¬ (d_last - 0 ≤ i ∧ i < d_last) := by omega
    rw [if_neg this]
  | succ n ih =>
    intro buf last d_last hlt hn hd
    have h0 : ¬ (last = 0 ∨ d_last = 0) := by omega
    have h1 : last - 1 < buf.cells.length := by omega
    have h2 : d_last - 1 < buf.cells.length := by omega
    obtain ⟨r, hr, hlen, hget⟩ :=
      ih ⟨some (buf.cells.set (d_last - 1) buf.cells[last - 1])⟩ (last - 1) (d_last - 1)
        (by omega) (by omega) (by rw [ArrayPtr.cells_some, List.length_set]; omega)
    rw [ArrayPtr.cells_some] at hlen hget
    refine ⟨r, ?_, ?_, ?_⟩
    · simp only [copy_backward_loop, h0, if_false, ArrayPtr.load_of_lt h1,
        ArrayPtr.store_of_lt _ h2, bind, Except.bind]
      exact hr
    · simpa using hlen
    · intro i
      rw [hget i]
      by_cases hi : d_last - 1 = i
      · have h3 : ¬ (d_last - 1 - n ≤ i ∧ i < d_last - 1) := by omega
        have h4 : d_last - (n + 1) ≤ i ∧ i < d_last := by omega
        have h5 : i - (d_last - last) = last - 1 := by omega
        rw [if_neg h3, if_pos h4, h5, List.getElem?_set, if_pos hi, if_pos h2,
          List.getElem?_eq_getElem h1]
      · by_cases h3 : d_last - 1 - n ≤ i ∧ i < d_last - 1
        · have h4 : d_last - (n + 1) ≤ i ∧ i < d_last := by omega
          have h5 : i - (d_last - 1 - (last - 1)) = i - (d_last - last) := by omega
          have h6 : d_last - 1 ≠ i - (d_last - last) := by omega
          rw [if_pos h3, if_pos h4, h5, List.getElem?_set, if_neg h6]
        · have h4 : ¬ (d_last - (n + 1) ≤ i ∧ i < d_last) := by omega
          rw [if_neg h3, if_neg h4, List.getElem?_set, if_neg hi]

theorem fill_loop_spec (value : T) (n : Nat) :
    ∀ (buf : ArrayPtr T) (first : Nat),
      first + n ≤ buf.cells.length →
      ∃ r, fill_loop buf first value n = .ok r ∧
        r.cells.length = buf.cells.length ∧
        ∀ i, r.cells[i]? =
          if first ≤ i ∧ i < first + n then some value else buf.cells[i]? := by
  induction n with
  | zero =>
    intro buf first _
    refine ⟨buf, rfl, rfl, ?_⟩
    intro i
    have : ¬ (first ≤ i ∧ i < first) := by omega
    simp [this]
  | succ n ih =>
    intro buf first hs
    have h2 : first < buf.cells.length := by omega
    obtain ⟨r, hr, hlen, hget⟩ := ih ⟨some (buf.cells.set first value)⟩ (first + 1)
      (by rw [ArrayPtr.cells_some, List.length_set]; omega)
    rw [ArrayPtr.cells_some] at hlen hget
    refine ⟨r, ?_, ?_, ?_⟩
    · simp only [fill_loop, ArrayPtr.store_of_lt _ h2, bind, Except.bind]
      exact hr
    · simpa using hlen
    · intro i
      rw [hget i]
      simp only [List.getElem?_set]
      by_cases hi : first = i
      · subst hi
        simp [h2]
      · by_cases h3 : first + 1 ≤ i ∧ i < first + 1 + n
        · have h4 : first ≤ i ∧ i < first + (n + 1) := by omega
          simp [h3, h4]
        · have h4 : ¬ (first ≤ i ∧ i < first + (n + 1)) := by omega
          simp [h3, h4, hi]

theorem copy_list_loop_spec (xs : List T) :
    ∀ (dst : ArrayPtr T) (d : Nat),
      d + xs.length ≤ dst.cells.length →
      ∃ r, copy_list_loop xs dst d = .ok r ∧
        r.cells.length = dst.cells.length ∧
        ∀ i, r.cells[i]? =
          if d ≤ i ∧ i < d + xs.length then xs[i - d]? else dst.cells[i]? := by
  induction xs with
  | nil =>
    intro dst d _
    refine ⟨dst, rfl, rfl, ?_⟩
    intro i
    have : ¬ (d ≤ i ∧ i < d) := by omega
    simp [this]
  | cons x xs ih =>
    intro dst d hs
    simp only [List.length_cons] at hs
    have h2 : d < dst.cells.length := by omega
    obtain ⟨r, hr, hlen, hget⟩ := ih ⟨some (dst.cells.set d x)⟩ (d + 1)
      (by rw [ArrayPtr.cells_some, List.length_set]; omega)
    rw [ArrayPtr.cells_some] at hlen hget
    refine ⟨r, ?_, ?_, ?_⟩
    · simp only [copy_list_loop, ArrayPtr.store_of_lt _ h2, bind, Except.bind]
      exact hr
    · simpa using hlen
    · intro i
      rw [hget i]
      simp only [List.getElem?_set, List.length_cons]
      by_cases hi : d = i
      · subst hi
        simp [h2]
      · by_cases h3 : d + 1 ≤ i ∧ i < d + 1 + xs.length
        · have h4 : d ≤ i ∧ i < d + (xs.length + 1) := by omega
          have h5 : i - d = (i - (d + 1)) + 1 := by omega
          simp [h3, h4, h5]
        · have h4 : ¬ (d ≤ i ∧ i < d + (xs.length + 1)) := by omega
          simp [h3, h4, hi]

end AlgorithmLemmas
end SimpleVectorModel

/-! ## Lemmas on the vector operations -/

namespace SimpleVectorModel
namespace SimpleVector
variable {T : Type}

theorem std_copy_spec (src : ArrayPtr T) (first last : Nat) (dst : ArrayPtr T) (d : Nat)
    (h1 : first ≤ last) (h2 : last ≤ src.cells.length)
    (h3 : d + (last - first) ≤ dst.cells.length) :
    ∃ r, std_copy src first last dst d = .ok r ∧
      r.cells.length = dst.cells.length ∧
      ∀ i, r.cells[i]? =
        if d ≤ i ∧ i < d + (last - first) then src.cells[first + (i - d)]?
        else dst.cells[i]? := by
  unfold std_copy
  rw [if_pos h1]
  exact copy_loop_spec src (last - first) first dst d (by omega) h3

theorem toList_getElem? (v : SimpleVector T) (i : Nat) :
    v.toList[i]? = if i < v.size_ then v.simple_vector_.cells[i]? else none := by
  unfold toList
  rw [List.getElem?_take]

theorem length_toList {v : SimpleVector T} (h : v.size_ ≤ v.simple_vector_.cells.length) :
    v.toList.length = v.size_ := by
  unfold toList
  rw [List.length_take]
  omega

theorem wf_iff (v : SimpleVector T) :
    v.wf ↔ v.size_ ≤ v.capacity_ ∧ v.capacity_ = v.simple_vector_.cells.length := Iff.rfl

theorem mk_size_spec [Inhabited T] (n : Nat) :
    ∃ b : ArrayPtr T, mk_size n = .ok ⟨b, n, n⟩ ∧ b.cells = List.replicate n default := by
  obtain ⟨r, hr, hlen, hget⟩ := fill_loop_spec (default : T) n (ArrayPtr.alloc n) 0
    (by rw [ArrayPtr.cells_alloc]; simp)
  refine ⟨r, ?_, ?_⟩
  · simp only [mk_size, hr, bind, Except.bind, ArrayPtr.swap, pure, Except.pure]
  · apply List.ext_getElem?
    intro i
    rw [hget i, ArrayPtr.cells_alloc, List.getElem?_replicate]
    by_cases h : i < n
    · have : 0 ≤ i ∧ i < 0 + n := by omega
      rw [if_pos this, if_pos h]
    · have : ¬ (0 ≤ i ∧ i < 0 + n) := by omega
      rw [if_neg this]


theorem load_ok_iff {b : ArrayPtr T} {j : Nat} {x : T} (h : b.load j = .ok x) :
    ∃ hj : j < b.cells.length, x = b.cells[j] := by
  by_cases hj : j < b.cells.length
  · rw [ArrayPtr.load_of_lt hj] at h
    exact ⟨hj, (Except.ok.inj h).symm⟩
  · rw [ArrayPtr.load_of_ge (by omega)] at h
    cases h

theorem exchange_of_read [Zero T] {item : ItemRef T} {b : ArrayPtr T} {x : T}
    (h : item.read b = .ok x) :
    ∃ b1, item.exchange b = .ok (x, b1) ∧ b1.cells.length = b.cells.length ∧
      (∀ y, item = .external y → b1 = b) ∧
      (∀ j, item = .element j → b1.cells = b.cells.set j 0) := by
  cases item with
  | external y =>
    refine ⟨b, ?_, rfl, fun _ _ => rfl, ?_⟩
    · simp only [ItemRef.read] at h
      simp only [ItemRef.exchange, Except.ok.inj h]
    · intro j hj
      cases hj
  | element j =>
    simp only [ItemRef.read] at h
    obtain ⟨hj, hx⟩ := load_ok_iff h
    refine ⟨⟨some (b.cells.set j 0)⟩, ?_, ?_, ?_, ?_⟩
    · simp only [ItemRef.exchange, h, ArrayPtr.store_of_lt (0 : T) hj, bind, Except.bind, pure,
        Except.pure]
    · rw [ArrayPtr.cells_some, List.length_set]
    · intro y hy
      cases hy
    · intro i hi
      cases hi
      rfl

theorem getElem?_append_singleton (xs : List T) (x : T) (i : Nat) :
    (xs ++ [x])[i]? = if i < xs.length then xs[i]? else if i = xs.length then some x else none := by
  rw [List.getElem?_append]
  by_cases h : i < xs.length
  · rw [if_pos h, if_pos h]
  · rw [if_neg h, if_neg h]
    by_cases h2 : i = xs.length
    · rw [if_pos h2, h2]; simp
    · rw [if_neg h2]
      have : i - xs.length ≠ 0 := by omega
      rw [List.getElem?_cons, if_neg this]; simp

theorem PushBack_spec [Inhabited T] (v : SimpleVector T) (item : ItemRef T) (x : T)
    (h : v.wf) (hx : item.read v.simple_vector_ = .ok x) :
    ∃ r, PushBack v item = .ok r ∧ r.size_ = v.size_ + 1 ∧
      r.capacity_ = (if v.size_ < v.capacity_ then v.capacity_
                     else if v.capacity_ = 0 then 1 else v.capacity_ * 2) ∧
      r.wf ∧ r.toList = v.toList ++ [x] := by
  obtain ⟨h1, h2⟩ := h
  unfold ArrayPtr.extent at h2
  by_cases hlt : v.size_ < v.capacity_
  · have hs : v.size_ < v.simple_vector_.cells.length := by omega
    refine ⟨⟨⟨some (v.simple_vector_.cells.set v.size_ x)⟩, v.size_ + 1, v.capacity_⟩,
      ?_, rfl, ?_, ?_, ?_⟩
    · simp only [PushBack, if_pos hlt, hx, ArrayPtr.store_of_lt x hs, bind, Except.bind, pure,
        Except.pure]
    · rw [if_pos hlt]
    · refine ⟨by simp only; omega, ?_⟩
      simp only [ArrayPtr.extent, ArrayPtr.cells_some, List.length_set]
      exact h2
    · apply List.ext_getElem?
      intro i
      rw [getElem?_append_singleton, length_toList (by omega), toList_getElem?,
        toList_getElem?]
      simp only [ArrayPtr.cells_some, List.getElem?_set]
      by_cases hi : i < v.size_
      · have hi2 : i < v.size_ + 1 := by omega
        have hi3 : v.size_ ≠ i := by omega
        rw [if_pos hi, if_pos hi, if_pos hi2, if_neg hi3]
      · rw [if_neg hi]
        by_cases hi2 : i = v.size_
        · have hi3 : i < v.size_ + 1 := by omega
          rw [if_pos hi2, if_pos hi3, if_pos hi2.symm, if_pos hs]
        · have hi3 : ¬ i < v.size_ + 1 := by omega
          rw [if_neg hi2, if_neg hi3]
  · have hsz : v.size_ = v.capacity_ := by omega
    obtain ⟨b, hb, hbc⟩ := mk_size_spec (T := T) (if v.capacity_ = 0 then 1 else v.capacity_ * 2)
    have hnc : v.size_ + 1 ≤ (if v.capacity_ = 0 then 1 else v.capacity_ * 2) := by
      split_ifs <;> omega
    have hbl : b.cells.length = (if v.capacity_ = 0 then 1 else v.capacity_ * 2) := by
      rw [hbc, List.length_replicate]
    obtain ⟨c, hc, hcl, hcg⟩ := std_copy_spec v.simple_vector_ 0 v.size_ b 0 (by omega)
      (by omega) (by omega)
    have hs : v.size_ < c.cells.length := by omega
    refine ⟨⟨⟨some (c.cells.set v.size_ x)⟩, v.size_ + 1,
      (if v.capacity_ = 0 then 1 else v.capacity_ * 2)⟩, ?_, rfl, ?_, ?_, ?_⟩
    · simp only [PushBack, if_neg hlt, hb, begin_, end_, hc, hx, ArrayPtr.store_of_lt x hs,
        bind, Except.bind, pure, Except.pure, ArrayPtr.swap]
    · rw [if_neg hlt]
    · refine ⟨hnc, ?_⟩
      simp only [ArrayPtr.extent, ArrayPtr.cells_some, List.length_set]
      omega
    · apply List.ext_getElem?
      intro i
      rw [getElem?_append_singleton, length_toList (by omega), toList_getElem?,
        toList_getElem?]
      simp only [ArrayPtr.cells_some, List.getElem?_set]
      by_cases hi : i < v.size_
      · have hi2 : i < v.size_ + 1 := by omega
        have hi3 : v.size_ ≠ i := by omega
        have hi4 : 0 ≤ i ∧ i < 0 + (v.size_ - 0) := by omega
        rw [if_pos hi, if_pos hi, if_pos hi2, if_neg hi3, hcg i, if_pos hi4]
        simp
      · rw [if_neg hi]
        by_cases hi2 : i = v.size_
        · have hi3 : i < v.size_ + 1 := by omega
          rw [if_pos hi2, if_pos hi3, if_pos hi2.symm, if_pos hs]
        · have hi3 : ¬ i < v.size_ + 1 := by omega
          rw [if_neg hi2, if_neg hi3]

theorem PushBack_move_external_eq [Inhabited T] [Zero T] (v : SimpleVector T) (x : T) :
    PushBack_move v (.external x) = PushBack v (.external x) := rfl

theorem PushBack_move_realloc_eq [Inhabited T] [Zero T] (v : SimpleVector T)
    (item : ItemRef T) (x : T) (hx : item.read v.simple_vector_ = .ok x)
    (hge : ¬ v.size_ < v.capacity_) :
    PushBack_move v item = PushBack v item := by
  obtain ⟨b1, hex, _, _, _⟩ := exchange_of_read hx
  simp only [PushBack_move, PushBack, if_neg hge, std_move, hx, hex, bind, Except.bind,
    ArrayPtr.swap]

theorem PushBack_move_inplace_element [Inhabited T] [Zero T] (v : SimpleVector T) (j : Nat)
    (x : T) (h : v.wf) (hx : (ItemRef.element j).read v.simple_vector_ = .ok x)
    (hlt : v.size_ < v.capacity_) :
    ∃ r, PushBack_move v (.element j) = .ok r ∧ r.size_ = v.size_ + 1 ∧
      r.capacity_ = v.capacity_ ∧ r.wf ∧ r.toList = v.toList.set j 0 ++ [x] := by
  obtain ⟨h1, h2⟩ := h
  unfold ArrayPtr.extent at h2
  obtain ⟨b1, hex, hbl, _, hbc⟩ := exchange_of_read hx
  have hbc := hbc j rfl
  have hs : v.size_ < b1.cells.length := by omega
  refine ⟨⟨⟨some (b1.cells.set v.size_ x)⟩, v.size_ + 1, v.capacity_⟩, ?_, rfl, rfl, ?_, ?_⟩
  · simp only [PushBack_move, if_pos hlt, hex, ArrayPtr.store_of_lt x hs, bind, Except.bind,
      pure, Except.pure]
  · refine ⟨by simp only; omega, ?_⟩
    simp only [ArrayPtr.extent, ArrayPtr.cells_some, List.length_set]
    omega
  · have hlen : (v.toList.set j 0).length = v.size_ := by
      rw [List.length_set]
      exact length_toList (by omega)
    apply List.ext_getElem?
    intro i
    rw [getElem?_append_singleton, hlen, toList_getElem?]
    simp only [ArrayPtr.cells_some, List.getElem?_set, hbc, List.length_set]
    by_cases hi : i < v.size_
    · have hi2 : i < v.size_ + 1 := by omega
      have hi3 : v.size_ ≠ i := by omega
      have hl : v.toList.length = v.size_ := length_toList (by omega)
      rw [if_pos hi, if_pos hi2, if_neg hi3, toList_getElem?, if_pos hi, hl]
      by_cases hji : j = i
      · have e1 : j < v.simple_vector_.cells.length := by omega
        have e2 : j < v.size_ := by omega
        rw [if_pos hji, if_pos hji, if_pos e1, if_pos e2]
      · rw [if_neg hji, if_neg hji]
    · rw [if_neg hi]
      by_cases hi2 : i = v.size_
      · have hi3 : i < v.size_ + 1 := by omega
        have e1 : v.size_ < v.simple_vector_.cells.length := by omega
        rw [if_pos hi2, if_pos hi3, if_pos hi2.symm, if_pos e1]
      · have hi3 : ¬ i < v.size_ + 1 := by omega
        rw [if_neg hi2, if_neg hi3]

theorem PushBack_move_any [Inhabited T] [Zero T] (v : SimpleVector T) (item : ItemRef T)
    (x : T) (h : v.wf) (hx : item.read v.simple_vector_ = .ok x) :
    ∃ r, PushBack_move v item = .ok r ∧ r.size_ = v.size_ + 1 ∧
      r.capacity_ = (if v.size_ < v.capacity_ then v.capacity_
                     else if v.capacity_ = 0 then 1 else v.capacity_ * 2) ∧
      r.wf := by
  by_cases hlt : v.size_ < v.capacity_
  · cases item with
    | external y =>
      obtain ⟨r, hr, hs, hc, hw, _⟩ := PushBack_spec v (.external y) x h hx
      exact ⟨r, hr, hs, hc, hw⟩
    | element j =>
      obtain ⟨r, hr, hs, hc, hw, _⟩ := PushBack_move_inplace_element v j x h hx hlt
      exact ⟨r, hr, hs, by rw [if_pos hlt]; exact hc, hw⟩
  · obtain ⟨r, hr, hs, hc, hw, _⟩ := PushBack_spec v item x h hx
    exact ⟨r, by rw [PushBack_move_realloc_eq v item x hx hlt]; exact hr, hs, hc, hw⟩

theorem getElem?_take_cons_drop (xs : List T) (k : Nat) (x : T) (hk : k ≤ xs.length) (i : Nat) :
    (xs.take k ++ [x] ++ xs.drop k)[i]? =
      if i < k then xs[i]? else if i = k then some x else xs[i - 1]? := by
  have hl : (xs.take k ++ [x]).length = k + 1 := by
    rw [List.length_append, List.length_take]; simp; omega
  rw [List.getElem?_append, hl]
  by_cases h1 : i < k
  · have h2 : i < k + 1 := by omega
    have h3 : i < (xs.take k).length := by rw [List.length_take]; omega
    rw [if_pos h2, if_pos h1, List.getElem?_append, if_pos h3, List.getElem?_take, if_pos h1]
  · rw [if_neg h1]
    by_cases h2 : i = k
    · have h3 : i < k + 1 := by omega
      have h4 : ¬ i < (xs.take k).length := by rw [List.length_take]; omega
      have h5 : i - (xs.take k).length = 0 := by rw [List.length_take]; omega
      rw [if_pos h3, if_pos h2, List.getElem?_append, if_neg h4, h5]
      rfl
    · have h3 : ¬ i < k + 1 := by omega
      have h4 : k + (i - (k + 1)) = i - 1 := by omega
      rw [if_neg h3, if_neg h2, List.getElem?_drop, h4]

theorem Insert_shift_spec (v : SimpleVector T) (k : Nat) (h : v.wf) (hk : k ≤ v.size_)
    (hlt : v.size_ < v.capacity_) :
    ∃ c, std_copy_backward v.simple_vector_ k v.size_ (v.size_ + 1) = .ok c ∧
      c.cells.length = v.simple_vector_.cells.length ∧
      ∀ i, c.cells[i]? =
        if k + 1 ≤ i ∧ i < v.size_ + 1 then v.simple_vector_.cells[i - 1]?
        else v.simple_vector_.cells[i]? := by
  obtain ⟨h1, h2⟩ := h
  unfold ArrayPtr.extent at h2
  obtain ⟨c, hc, hcl, hcg⟩ := copy_backward_loop_spec (v.size_ - k) v.simple_vector_ v.size_
    (v.size_ + 1) (by omega) (by omega) (by omega)
  refine ⟨c, ?_, hcl, ?_⟩
  · simp only [std_copy_backward, if_pos hk]
    exact hc
  · intro i
    rw [hcg i]
    by_cases hi : k + 1 ≤ i ∧ i < v.size_ + 1
    · have e1 : v.size_ + 1 - (v.size_ - k) ≤ i ∧ i < v.size_ + 1 := by omega
      have e2 : i - (v.size_ + 1 - v.size_) = i - 1 := by omega
      rw [if_pos hi, if_pos e1, e2]
    · have e1 : ¬ (v.size_ + 1 - (v.size_ - k) ≤ i ∧ i < v.size_ + 1) := by omega
      rw [if_neg hi, if_neg e1]

theorem Insert_inplace_contents (v : SimpleVector T) (k : Nat) (x : T) (c : ArrayPtr T)
    (h : v.wf) (hk : k ≤ v.size_) (hlt : v.size_ < v.capacity_)
    (hcl : c.cells.length = v.simple_vector_.cells.length)
    (hcg : ∀ i, c.cells[i]? =
        if k + 1 ≤ i ∧ i < v.size_ + 1 then v.simple_vector_.cells[i - 1]?
        else v.simple_vector_.cells[i]?) :
    (⟨⟨some (c.cells.set k x)⟩, v.size_ + 1, v.capacity_⟩ : SimpleVector T).toList =
      v.toList.take k ++ [x] ++ v.toList.drop k := by
  obtain ⟨h1, h2⟩ := h
  unfold ArrayPtr.extent at h2
  have hlen : v.toList.length = v.size_ := length_toList (by omega)
  have hs : k < c.cells.length := by omega
  apply List.ext_getElem?
  intro i
  rw [getElem?_take_cons_drop _ _ _ (by omega), toList_getElem?, toList_getElem?,
    toList_getElem?]
  simp only [ArrayPtr.cells_some, List.getElem?_set]
  by_cases hi : i < k
  · have e1 : i < v.size_ + 1 := by omega
    have e2 : k ≠ i := by omega
    have e3 : ¬ (k + 1 ≤ i ∧ i < v.size_ + 1) := by omega
    have e4 : i < v.size_ := by omega
    rw [if_pos e1, if_neg e2, hcg i, if_neg e3, if_pos hi, if_pos e4]
  · rw [if_neg hi]
    by_cases hi2 : i = k
    · have e1 : i < v.size_ + 1 := by omega
      rw [if_pos e1, if_pos hi2.symm, if_pos hs, if_pos hi2]
    · rw [if_neg hi2]
      have e2 : k ≠ i := by omega
      by_cases hi3 : i < v.size_ + 1
      · have e3 : k + 1 ≤ i ∧ i < v.size_ + 1 := by omega
        have e4 : i - 1 < v.size_ := by omega
        rw [if_pos hi3, if_neg e2, hcg i, if_pos e3, if_pos e4]
      · have e4 : ¬ i - 1 < v.size_ := by omega
        rw [if_neg hi3, if_neg e4]

theorem Insert_realloc_spec [Inhabited T] (v : SimpleVector T) (k : Nat) (item : ItemRef T)
    (x : T) (h : v.wf) (hk : k ≤ v.size_) (hlt : ¬ v.size_ < v.capacity_)
    (hx : item.read v.simple_vector_ = .ok x) :
    ∃ r, Insert v k item = .ok (r, k) ∧ r.size_ = v.size_ + 1 ∧
      r.capacity_ = (if v.capacity_ = 0 then 1 else v.capacity_ * 2) ∧
      r.wf ∧ r.toList = v.toList.take k ++ [x] ++ v.toList.drop k := by
  obtain ⟨h1, h2⟩ := h
  unfold ArrayPtr.extent at h2
  have hlen : v.toList.length = v.size_ := length_toList (by omega)
  have hsz : v.size_ = v.capacity_ := by omega
  obtain ⟨b, hb, hbc⟩ := mk_size_spec (T := T) (if v.capacity_ = 0 then 1 else v.capacity_ * 2)
  have hnc : v.size_ + 1 ≤ (if v.capacity_ = 0 then 1 else v.capacity_ * 2) := by
    split_ifs <;> omega
  have hbl : b.cells.length = (if v.capacity_ = 0 then 1 else v.capacity_ * 2) := by
    rw [hbc, List.length_replicate]
  obtain ⟨c, hc, hcl, hcg⟩ := std_copy_spec v.simple_vector_ 0 k b 0 (by omega)
    (by omega) (by omega)
  obtain ⟨d, hd, hdl, hdg⟩ := std_copy_spec v.simple_vector_ k v.size_ c (k + 1) hk
    (by omega) (by omega)
  have hs : k < d.cells.length := by omega
  refine ⟨⟨⟨some (d.cells.set k x)⟩, v.size_ + 1,
    (if v.capacity_ = 0 then 1 else v.capacity_ * 2)⟩, ?_, rfl, rfl, ?_, ?_⟩
  · simp only [Insert, if_neg hlt, hb, begin_, end_, Nat.sub_zero, Nat.zero_add, hc, hd, hx,
      ArrayPtr.store_of_lt x hs, bind, Except.bind, pure, Except.pure, ArrayPtr.swap]
  · refine ⟨hnc, ?_⟩
    simp only [ArrayPtr.extent, ArrayPtr.cells_some, List.length_set]
    omega
  · apply List.ext_getElem?
    intro i
    rw [getElem?_take_cons_drop _ _ _ (by omega), toList_getElem?, toList_getElem?,
      toList_getElem?]
    simp only [ArrayPtr.cells_some, List.getElem?_set]
    by_cases hi : i < k
    · have e1 : i < v.size_ + 1 := by omega
      have e2 : k ≠ i := by omega
      have e3 : ¬ (k + 1 ≤ i ∧ i < k + 1 + (v.size_ - k)) := by omega
      have e4 : i < v.size_ := by omega
      have e5 : 0 ≤ i ∧ i < 0 + (k - 0) := by omega
      have e6 : 0 + (i - 0) = i := by omega
      rw [if_pos e1, if_neg e2, hdg i, if_neg e3, hcg i, if_pos e5, e6, if_pos hi, if_pos e4]
    · rw [if_neg hi]
      by_cases hi2 : i = k
      · have e1 : i < v.size_ + 1 := by omega
        rw [if_pos e1, if_pos hi2.symm, if_pos hs, if_pos hi2]
      · rw [if_neg hi2]
        have e2 : k ≠ i := by omega
        by_cases hi3 : i < v.size_ + 1
        · have e3 : k + 1 ≤ i ∧ i < k + 1 + (v.size_ - k) := by omega
          have e4 : i - 1 < v.size_ := by omega
          have e5 : k + (i - (k + 1)) = i - 1 := by omega
          rw [if_pos hi3, if_neg e2, hdg i, if_pos e3, if_pos e4, e5]
        · have e4 : ¬ i - 1 < v.size_ := by omega
          rw [if_neg hi3, if_neg e4]

theorem Insert_move_external_eq [Inhabited T] [Zero T] (v : SimpleVector T) (k : Nat) (x : T) :
    Insert_move v k (.external x) = Insert v k (.external x) := rfl

theorem Insert_move_realloc_eq [Inhabited T] [Zero T] (v : SimpleVector T) (k : Nat)
    (item : ItemRef T) (x : T) (hx : item.read v.simple_vector_ = .ok x)
    (hge : ¬ v.size_ < v.capacity_) :
    Insert_move v k item = Insert v k item := by
  obtain ⟨b1, hex, _, _, _⟩ := exchange_of_read hx
  simp only [Insert_move, Insert, if_neg hge, std_move, hx, hex, bind, Except.bind,
    ArrayPtr.swap]

theorem Insert_any [Inhabited T] (v : SimpleVector T) (k : Nat) (item : ItemRef T) (x : T)
    (h : v.wf) (hk : k ≤ v.size_) (hx : item.read v.simple_vector_ = .ok x) :
    ∃ r y, Insert v k item = .ok (r, k) ∧ r.size_ = v.size_ + 1 ∧
      r.capacity_ = (if v.size_ < v.capacity_ then v.capacity_
                     else if v.capacity_ = 0 then 1 else v.capacity_ * 2) ∧
      r.wf ∧ r.toList = v.toList.take k ++ [y] ++ v.toList.drop k ∧
      ((∀ j, item = .element j → j ≤ k ∨ v.size_ = v.capacity_) → y = x) := by
  by_cases hlt : v.size_ < v.capacity_
  · obtain ⟨c, hc, hcl, hcg⟩ := Insert_shift_spec v k h hk hlt
    have hext : v.capacity_ = v.simple_vector_.cells.length := h.2
    have hs : k < c.cells.length := by have := h.1; omega
    have key : ∃ y, item.read c = .ok y ∧
        ((∀ j, item = .element j → j ≤ k ∨ v.size_ = v.capacity_) → y = x) := by
      cases item with
      | external y =>
        refine ⟨y, rfl, ?_⟩
        intro _
        simp only [ItemRef.read] at hx
        exact Except.ok.inj hx
      | element j =>
        simp only [ItemRef.read] at hx
        obtain ⟨hj, hxj⟩ := load_ok_iff hx
        have hj2 : j < c.cells.length := by omega
        refine ⟨c.cells[j], ArrayPtr.load_of_lt hj2, ?_⟩
        intro hsafe
        have hjk : j ≤ k := by
          rcases hsafe j rfl with h3 | h3
          · exact h3
          · omega
        have e1 : ¬ (k + 1 ≤ j ∧ j < v.size_ + 1) := by omega
        have e2 := hcg j
        rw [if_neg e1, List.getElem?_eq_getElem hj2, List.getElem?_eq_getElem hj] at e2
        rw [hxj]
        exact Option.some.inj e2
    obtain ⟨y, hy, hyx⟩ := key
    refine ⟨⟨⟨some (c.cells.set k y)⟩, v.size_ + 1, v.capacity_⟩, y, ?_, rfl, ?_, ?_,
      Insert_inplace_contents v k y c h hk hlt hcl hcg, hyx⟩
    · simp only [Insert, if_pos hlt, begin_, end_, Nat.sub_zero, hc, hy,
        ArrayPtr.store_of_lt y hs, bind, Except.bind, pure, Except.pure]
    · rw [if_pos hlt]
    · refine ⟨by simp only; omega, ?_⟩
      simp only [ArrayPtr.extent, ArrayPtr.cells_some, List.length_set]
      omega
  · obtain ⟨r, hr, hsz, hc, hw, hl⟩ := Insert_realloc_spec v k item x h hk hlt hx
    exact ⟨r, x, hr, hsz, by rw [if_neg hlt]; exact hc, hw, hl, fun _ => rfl⟩

theorem Insert_move_any [Inhabited T] [Zero T] (v : SimpleVector T) (k : Nat)
    (item : ItemRef T) (x : T) (h : v.wf) (hk : k ≤ v.size_)
    (hx : item.read v.simple_vector_ = .ok x) :
    ∃ r, Insert_move v k item = .ok (r, k) ∧ r.size_ = v.size_ + 1 ∧
      r.capacity_ = (if v.size_ < v.capacity_ then v.capacity_
                     else if v.capacity_ = 0 then 1 else v.capacity_ * 2) ∧
      r.wf ∧
      ((∀ j, item = .element j → j = k ∨ v.size_ = v.capacity_) →
        r.toList = v.toList.take k ++ [x] ++ v.toList.drop k) := by
  by_cases hlt : v.size_ < v.capacity_
  · obtain ⟨c, hc, hcl, hcg⟩ := Insert_shift_spec v k h hk hlt
    have hext : v.capacity_ = v.simple_vector_.cells.length := h.2
    have hle := h.1
    cases item with
    | external y =>
      obtain ⟨r, y1, hr, hsz, hcap, hw, hl, hy⟩ := Insert_any v k (.external y) x h hk hx
      refine ⟨r, by rw [Insert_move_external_eq]; exact hr, hsz, hcap, hw, ?_⟩
      intro hsafe
      rw [hl, hy (fun j hj => by cases hj)]
    | element j =>
      simp only [ItemRef.read] at hx
      obtain ⟨hj, hxj⟩ := load_ok_iff hx
      have hj2 : j < c.cells.length := by omega
      have hread : (ItemRef.element j).read c = .ok c.cells[j] := ArrayPtr.load_of_lt hj2
      obtain ⟨c1, hex, hc1l, _, hc1c⟩ := exchange_of_read hread
      have hc1c := hc1c j rfl
      have hs : k < c1.cells.length := by omega
      refine ⟨⟨⟨some (c1.cells.set k c.cells[j])⟩, v.size_ + 1, v.capacity_⟩, ?_, rfl, ?_, ?_,
        ?_⟩
      · simp only [Insert_move, if_pos hlt, begin_, end_, Nat.sub_zero, std_move_backward, hc,
          hex, ArrayPtr.store_of_lt _ hs, bind, Except.bind, pure, Except.pure]
      · rw [if_pos hlt]
      · refine ⟨by simp only; omega, ?_⟩
        simp only [ArrayPtr.extent, ArrayPtr.cells_some, List.length_set]
        omega
      · intro hsafe
        have hjk : j = k := by
          rcases hsafe j rfl with h3 | h3
          · exact h3
          · omega
        subst hjk
        have e1 : ¬ (j + 1 ≤ j ∧ j < v.size_ + 1) := by omega
        have e2 := hcg j
        rw [if_neg e1, List.getElem?_eq_getElem hj2, List.getElem?_eq_getElem hj] at e2
        have e3 : c.cells[j] = x := by
          rw [hxj]
          exact Option.some.inj e2
        rw [hc1c, List.set_set, e3]
        exact Insert_inplace_contents v j x c h hk hlt hcl hcg
  · obtain ⟨r, hr, hsz, hc, hw, hl⟩ := Insert_realloc_spec v k item x h hk hlt hx
    exact ⟨r, by rw [Insert_move_realloc_eq v k item x hx hlt]; exact hr, hsz,
      by rw [if_neg hlt]; exact hc, hw, fun _ => hl⟩

theorem Erase_spec (v : SimpleVector T) (k : Nat) (h : v.wf) (hk : k < v.size_) :
    ∃ r, Erase v k = .ok (r, k) ∧ r.size_ = v.size_ - 1 ∧ r.capacity_ = v.capacity_ ∧
      r.wf ∧ r.toList = v.toList.eraseIdx k := by
  obtain ⟨h1, h2⟩ := h
  unfold ArrayPtr.extent at h2
  obtain ⟨c, hc, hcl, hcg⟩ := move_within_loop_spec (v.size_ - (k + 1)) v.simple_vector_ (k + 1) k
    (by omega) (by omega)
  have hz : ¬ v.size_ = 0 := by omega
  refine ⟨⟨c, v.size_ - 1, v.capacity_⟩, ?_, rfl, rfl, ?_, ?_⟩
  · have hk2 : k + 1 ≤ v.size_ := hk
    simp only [Erase, begin_, end_, Nat.sub_zero, std_move_within, if_pos hk2, hc, bind,
      Except.bind, pure, Except.pure, if_neg hz]
  · refine ⟨by simp only; omega, ?_⟩
    simp only [ArrayPtr.extent]
    omega
  · apply List.ext_getElem?
    intro i
    rw [List.getElem?_eraseIdx, toList_getElem?, toList_getElem?, toList_getElem?]
    simp only
    by_cases hi : i < v.size_ - 1
    · have e1 : i + 1 < v.size_ := by omega
      have e2 : i < v.size_ := by omega
      rw [if_pos hi, if_pos e1, if_pos e2, hcg i]
      by_cases hi2 : i < k
      · have e3 : ¬ (k ≤ i ∧ i < k + (v.size_ - (k + 1))) := by omega
        rw [if_pos hi2, if_neg e3]
      · have e3 : k ≤ i ∧ i < k + (v.size_ - (k + 1)) := by omega
        have e4 : k + 1 + (i - k) = i + 1 := by omega
        rw [if_neg hi2, if_pos e3, e4]
    · have e1 : ¬ i + 1 < v.size_ := by omega
      rw [if_neg hi, if_neg e1]
      by_cases hi2 : i < k
      · omega
      · rw [if_neg hi2]

theorem index_of_lt {v : SimpleVector T} {i : Nat} (hs : v.size_ ≤ v.simple_vector_.cells.length)
    (hi : i < v.size_) :
    ∃ y, v.toList[i]? = some y ∧ v.index i = .ok y := by
  have h : i < v.simple_vector_.cells.length := by omega
  refine ⟨v.simple_vector_.cells[i], ?_, ?_⟩
  · rw [toList_getElem?, if_pos hi, List.getElem?_eq_getElem h]
  · exact ArrayPtr.load_of_lt h

theorem index_agree {v r : SimpleVector T} {i : Nat}
    (hv : v.size_ ≤ v.simple_vector_.cells.length) (hr : r.size_ ≤ r.simple_vector_.cells.length)
    (hi : i < v.size_) (hi2 : i < r.size_) (h : r.toList[i]? = v.toList[i]?) :
    ∃ y, v.index i = .ok y ∧ r.index i = .ok y := by
  obtain ⟨y, hy1, hy2⟩ := index_of_lt hv hi
  obtain ⟨z, hz1, hz2⟩ := index_of_lt hr hi2
  rw [hy1, hz1] at h
  cases h
  exact ⟨y, hy2, hz2⟩

theorem Resize_shrink_spec [Inhabited T] (v : SimpleVector T) (n : Nat) (hn : n ≤ v.size_) :
    Resize v n = .ok { v with size_ := n } := by
  simp only [Resize, if_pos hn, pure, Except.pure]

theorem Resize_grow_spec [Inhabited T] (v : SimpleVector T) (n : Nat) (h : v.wf)
    (hn : v.size_ < n) :
    ∃ r, Resize v n = .ok r ∧ r.size_ = n ∧ r.capacity_ = n ∧ r.wf ∧
      r.toList = v.toList ++ List.replicate (n - v.size_) default := by
  obtain ⟨h1, h2⟩ := h
  unfold ArrayPtr.extent at h2
  have hlen : v.toList.length = v.size_ := length_toList (by omega)
  have hal : (ArrayPtr.alloc n : ArrayPtr T).cells.length = n := by
    rw [ArrayPtr.cells_alloc, List.length_replicate]
  obtain ⟨c, hc, hcl, hcg⟩ := std_copy_spec v.simple_vector_ 0 v.size_ (ArrayPtr.alloc n) 0
    (by omega) (by omega) (by omega)
  obtain ⟨d, hd, hdl, hdg⟩ := fill_loop_spec (default : T) (n - v.size_) c v.size_ (by omega)
  have hnle : ¬ n ≤ v.size_ := by omega
  have hle : v.size_ ≤ n := by omega
  refine ⟨⟨d, n, n⟩, ?_, rfl, rfl, ?_, ?_⟩
  · simp only [Resize, if_neg hnle, std_move, begin_, end_, Nat.sub_zero, hc, std_fill, if_pos hle,
      hd, bind, Except.bind, pure, Except.pure, ArrayPtr.swap]
  · refine ⟨Nat.le_refl _, ?_⟩
    simp only [ArrayPtr.extent]
    omega
  · apply List.ext_getElem?
    intro i
    rw [toList_getElem?, List.getElem?_append, hlen, toList_getElem?, List.getElem?_replicate]
    simp only
    by_cases hi : i < v.size_
    · have e1 : i < n := by omega
      have e2 : ¬ (v.size_ ≤ i ∧ i < v.size_ + (n - v.size_)) := by omega
      have e3 : 0 ≤ i ∧ i < 0 + (v.size_ - 0) := by omega
      have e4 : 0 + (i - 0) = i := by omega
      rw [if_pos hi, if_pos hi, if_pos e1, hdg i, if_neg e2, hcg i, if_pos e3, e4]
    · rw [if_neg hi]
      by_cases hi2 : i < n
      · have e2 : v.size_ ≤ i ∧ i < v.size_ + (n - v.size_) := by omega
        have e3 : i - v.size_ < n - v.size_ := by omega
        rw [if_pos hi2, hdg i, if_pos e2, if_pos e3]
      · have e3 : ¬ i - v.size_ < n - v.size_ := by omega
        rw [if_neg hi2, if_neg e3]

theorem Reserve_noop_spec [Inhabited T] (v : SimpleVector T) (n : Nat) (hn : n ≤ v.capacity_) :
    Reserve v n = .ok v := by
  simp only [Reserve, if_pos hn, pure, Except.pure]

theorem Reserve_grow_spec [Inhabited T] (v : SimpleVector T) (n : Nat) (h : v.wf)
    (hn : v.capacity_ < n) :
    ∃ r, Reserve v n = .ok r ∧ r.size_ = v.size_ ∧ r.capacity_ = n ∧ r.wf ∧
      r.toList = v.toList := by
  obtain ⟨h1, h2⟩ := h
  unfold ArrayPtr.extent at h2
  have hal : (ArrayPtr.alloc n : ArrayPtr T).cells.length = n := by
    rw [ArrayPtr.cells_alloc, List.length_replicate]
  have hnle : ¬ n ≤ v.capacity_ := by omega
  have key : ∃ c, Reserve v n = .ok ⟨c, v.size_, n⟩ ∧ c.cells.length = n ∧
      ∀ i, i < v.size_ → c.cells[i]? = v.simple_vector_.cells[i]? := by
    by_cases hz : v.size_ ≠ 0
    · obtain ⟨c, hc, hcl, hcg⟩ := std_copy_spec v.simple_vector_ 0 v.size_ (ArrayPtr.alloc n) 0
        (by omega) (by omega) (by omega)
      refine ⟨c, ?_, by omega, ?_⟩
      · simp only [Reserve, if_neg hnle, if_pos hz, std_move, begin_, end_, hc, bind,
          Except.bind, pure, Except.pure, ArrayPtr.swap]
      · intro i hi
        have e3 : 0 ≤ i ∧ i < 0 + (v.size_ - 0) := by omega
        have e4 : 0 + (i - 0) = i := by omega
        rw [hcg i, if_pos e3, e4]
    · refine ⟨ArrayPtr.alloc n, ?_, hal, ?_⟩
      · simp only [Reserve, if_neg hnle, if_neg hz, bind, Except.bind, pure, Except.pure,
          ArrayPtr.swap]
      · intro i hi
        omega
  obtain ⟨c, hc, hcl, hcg⟩ := key
  refine ⟨⟨c, v.size_, n⟩, hc, rfl, rfl, ?_, ?_⟩
  · refine ⟨by simp only; omega, ?_⟩
    simp only [ArrayPtr.extent]
    omega
  · apply List.ext_getElem?
    intro i
    rw [toList_getElem?, toList_getElem?]
    simp only
    by_cases hi : i < v.size_
    · rw [if_pos hi, if_pos hi, hcg i hi]
    · rw [if_neg hi, if_neg hi]

theorem PopBack_wf (v : SimpleVector T) (h : v.wf) : (PopBack v).wf := by
  obtain ⟨h1, h2⟩ := h
  refine ⟨?_, h2⟩
  simp only [PopBack]
  split_ifs <;> omega

theorem Clear_wf (v : SimpleVector T) (h : v.wf) : (Clear v).wf := by
  obtain ⟨_, h2⟩ := h
  exact ⟨Nat.zero_le _, h2⟩

end SimpleVector
end SimpleVectorModel

/-! ## Further lemmas used by the claims -/

namespace SimpleVectorModel
namespace SimpleVector
variable {T : Type}

theorem wf_size_le {v : SimpleVector T} (h : v.wf) : v.size_ ≤ v.simple_vector_.cells.length := by
  obtain ⟨h1, h2⟩ := h
  unfold ArrayPtr.extent at h2
  omega

theorem index_eq_ok_of_toList {v : SimpleVector T} {i : Nat} {y : T} (h : v.wf)
    (hy : v.toList[i]? = some y) : v.index i = .ok y := by
  have hs := wf_size_le h
  have hi : i < v.size_ := by
    by_contra hc
    rw [toList_getElem?, if_neg hc] at hy
    cases hy
  obtain ⟨z, hz1, hz2⟩ := index_of_lt hs hi
  rw [hz1] at hy
  cases hy
  exact hz2

theorem eraseIdx_take_cons_drop (xs : List T) (k : Nat) (x : T) (hk : k ≤ xs.length) :
    (xs.take k ++ [x] ++ xs.drop k).eraseIdx k = xs := by
  apply List.ext_getElem?
  intro i
  rw [List.getElem?_eraseIdx]
  by_cases h1 : i < k
  · rw [if_pos h1, getElem?_take_cons_drop _ _ _ hk, if_pos h1]
  · have h2 : ¬ i + 1 < k := by omega
    have h3 : ¬ i + 1 = k := by omega
    rw [if_neg h1, getElem?_take_cons_drop _ _ _ hk, if_neg h2, if_neg h3]
    rfl

end SimpleVector
end SimpleVectorModel

/-! ## The claims -/

namespace SimpleVectorModel

open SimpleVector

variable {T : Type}

/-- C1 (violated by the code): the copy constructor allocates `other.GetSize()` slots but
records `other.capacity_`. A vector built by the reservation constructor with capacity 4
and two calls of `PushBack` is well formed (size 2, capacity 4, 4 slots); its copy has
size 2 and capacity 4 over a block of only 2 slots, so its capacity is not the number of
allocated slots and index 2, which lies in `[size, capacity)`, is not an allocated slot:
the next `PushBack` on the copy takes the in-place branch and writes outside the block. -/
theorem C1_copy_records_capacity_without_slots :
    (do let v ← PushBack (mk_reserve 4 : SimpleVector Nat) (.external 1)
        PushBack v (.external 2)) = Except.ok ⟨⟨some [1, 2, 0, 0]⟩, 2, 4⟩ ∧
    (⟨⟨some [1, 2, 0, 0]⟩, 2, 4⟩ : SimpleVector Nat).wf ∧
    mk_copy (⟨⟨some [1, 2, 0, 0]⟩, 2, 4⟩ : SimpleVector Nat) = Except.ok ⟨⟨some [1, 2]⟩, 2, 4⟩ ∧
    (⟨⟨some [1, 2]⟩, 2, 4⟩ : SimpleVector Nat).capacity_ = 4 ∧
    (⟨⟨some [1, 2]⟩, 2, 4⟩ : SimpleVector Nat).simple_vector_.extent = 2 ∧
    ¬ (⟨⟨some [1, 2]⟩, 2, 4⟩ : SimpleVector Nat).wf ∧
    PushBack (⟨⟨some [1, 2]⟩, 2, 4⟩ : SimpleVector Nat) (.external 3) =
      Except.error Fault.undefined_behaviour := by
  refine ⟨rfl, by decide, rfl, rfl, rfl, by decide, rfl⟩

/-- C3: on a well-formed vector with logical contents `xs` and an offset `k < size`, `Erase`
returns, the logical contents afterwards are `xs` without the element at index `k`, the
size has dropped by one, the capacity is unchanged, and the returned iterator is at offset
`k`, which is `end()` of the resulting vector exactly when `k` was the last index. -/
theorem C3_Erase_removes_element_at_offset (v : SimpleVector T) (k : Nat)
    (hwf : v.wf) (hk : k < v.size_) :
    ∃ r, Erase v k = .ok (r, k) ∧ r.toList = v.toList.eraseIdx k ∧
      r.size_ + 1 = v.size_ ∧ r.capacity_ = v.capacity_ ∧
      (k = r.end_ ↔ k = v.size_ - 1) := by
  obtain ⟨r, hr, hsz, hcap, _, hl⟩ := Erase_spec v k hwf hk
  refine ⟨r, hr, hl, by omega, hcap, ?_⟩
  unfold end_
  omega

/-- C3 at scenario 3 of the specification: `{1,2,3}`, `Erase(begin())`. -/
theorem C3_Erase_removes_element_at_offset_witness :
    ∃ r, Erase (⟨⟨some [1, 2, 3]⟩, 3, 3⟩ : SimpleVector Nat) 0 = .ok (r, 0) ∧
      r.toList = (⟨⟨some [1, 2, 3]⟩, 3, 3⟩ : SimpleVector Nat).toList.eraseIdx 0 ∧
      r.size_ + 1 = (⟨⟨some [1, 2, 3]⟩, 3, 3⟩ : SimpleVector Nat).size_ ∧
      r.capacity_ = (⟨⟨some [1, 2, 3]⟩, 3, 3⟩ : SimpleVector Nat).capacity_ ∧
      (0 = r.end_ ↔ 0 = (⟨⟨some [1, 2, 3]⟩, 3, 3⟩ : SimpleVector Nat).size_ - 1) :=
  C3_Erase_removes_element_at_offset ⟨⟨some [1, 2, 3]⟩, 3, 3⟩ 0 (by decide) (by decide)

/-- C4: on a well-formed vector, for every position `k ≤ size` and every item that can be
read when `Insert` is called (an object outside the vector or one of its cells), `Insert`
returns a vector and an iterator, `Erase` at that iterator returns, and afterwards the
size is the size before the `Insert`, the logical contents are the original ones, and
every index below the size reads, without fault, the element it read originally. -/
theorem C4_Erase_after_Insert_restores [Inhabited T] (v : SimpleVector T) (k : Nat)
    (item : ItemRef T) (x : T) (hwf : v.wf) (hk : k ≤ v.size_)
    (hx : item.read v.simple_vector_ = .ok x) :
    ∃ r1 p r2 q, Insert v k item = .ok (r1, p) ∧ Erase r1 p = .ok (r2, q) ∧
      r2.size_ = v.size_ ∧ r2.toList = v.toList ∧
      ∀ i, i < v.size_ → ∃ y, v.index i = .ok y ∧ r2.index i = .ok y := by
  obtain ⟨r1, z, hr1, hsz1, _, hwf1, hl1, _⟩ := Insert_any v k item x hwf hk hx
  obtain ⟨r2, hr2, hsz2, _, hwf2, hl2⟩ := Erase_spec r1 k hwf1 (by omega)
  have hlen : v.toList.length = v.size_ := length_toList (wf_size_le hwf)
  have hl : r2.toList = v.toList := by
    rw [hl2, hl1, eraseIdx_take_cons_drop _ _ _ (by omega)]
  refine ⟨r1, k, r2, k, hr1, hr2, by omega, hl, ?_⟩
  intro i hi
  exact index_agree (wf_size_le hwf) (wf_size_le hwf2) hi (by omega) (by rw [hl])

/-- C4 at `{1,2,3}` with capacity 3 (reallocating `Insert`), position 1, value 9 held
outside the vector. -/
theorem C4_Erase_after_Insert_restores_witness :
    ∃ r1 p r2 q, Insert (⟨⟨some [1, 2, 3]⟩, 3, 3⟩ : SimpleVector Nat) 1 (.external 9) = .ok (r1, p) ∧
      Erase r1 p = .ok (r2, q) ∧
      r2.size_ = (⟨⟨some [1, 2, 3]⟩, 3, 3⟩ : SimpleVector Nat).size_ ∧
      r2.toList = (⟨⟨some [1, 2, 3]⟩, 3, 3⟩ : SimpleVector Nat).toList ∧
      ∀ i, i < (⟨⟨some [1, 2, 3]⟩, 3, 3⟩ : SimpleVector Nat).size_ →
        ∃ y, (⟨⟨some [1, 2, 3]⟩, 3, 3⟩ : SimpleVector Nat).index i = .ok y ∧
          r2.index i = .ok y :=
  C4_Erase_after_Insert_restores (⟨⟨some [1, 2, 3]⟩, 3, 3⟩ : SimpleVector Nat) 1 (.external 9) 9 (by decide) (by decide) rfl

/-- C6: growth policy of `PushBack` and `Insert` (both overloads of each). On a
well-formed vector of capacity `c`, for every item that can be read when the member is
called (an object outside the vector or one of its cells), every call returns; if
`size == c` before the call the capacity afterwards is `max(1, 2*c)`, and if `size < c` it
is still `c`. For an item outside the vector the two overloads return the same vector. -/
theorem C6_growth_policy [Inhabited T] [Zero T] (v : SimpleVector T) (k : Nat)
    (item : ItemRef T) (x : T) (hwf : v.wf) (hk : k ≤ v.size_)
    (hx : item.read v.simple_vector_ = .ok x) :
    ∃ r1 r2 r3 r4 p, PushBack v item = .ok r1 ∧ PushBack_move v item = .ok r2 ∧
      Insert v k item = .ok (r3, p) ∧ Insert_move v k item = .ok (r4, p) ∧
      (v.size_ = v.capacity_ →
        r1.capacity_ = max 1 (2 * v.capacity_) ∧ r2.capacity_ = max 1 (2 * v.capacity_) ∧
        r3.capacity_ = max 1 (2 * v.capacity_) ∧ r4.capacity_ = max 1 (2 * v.capacity_)) ∧
      (v.size_ < v.capacity_ →
        r1.capacity_ = v.capacity_ ∧ r2.capacity_ = v.capacity_ ∧
        r3.capacity_ = v.capacity_ ∧ r4.capacity_ = v.capacity_) ∧
      (∀ y, item = .external y → r2 = r1 ∧ r4 = r3) := by
  obtain ⟨r1, hr1, _, hc1, _, _⟩ := PushBack_spec v item x hwf hx
  obtain ⟨r2, hr2, _, hc2, _⟩ := PushBack_move_any v item x hwf hx
  obtain ⟨r3, _, hr3, _, hc3, _, _, _⟩ := Insert_any v k item x hwf hk hx
  obtain ⟨r4, hr4, _, hc4, _, _⟩ := Insert_move_any v k item x hwf hk hx
  refine ⟨r1, r2, r3, r4, k, hr1, hr2, hr3, hr4, ?_, ?_, ?_⟩
  · intro he
    have hn : ¬ v.size_ < v.capacity_ := by omega
    rw [if_neg hn] at hc1 hc2 hc3 hc4
    rw [hc1, hc2, hc3, hc4]
    by_cases hz : v.capacity_ = 0
    · rw [if_pos hz, hz]
      exact ⟨rfl, rfl, rfl, rfl⟩
    · rw [if_neg hz]
      have : max 1 (2 * v.capacity_) = v.capacity_ * 2 := by
        rw [Nat.max_def]
        split_ifs <;> omega
      exact ⟨this.symm, this.symm, this.symm, this.symm⟩
  · intro hlt
    rw [if_pos hlt] at hc1 hc2 hc3 hc4
    exact ⟨hc1, hc2, hc3, hc4⟩
  · intro y hy
    subst hy
    rw [PushBack_move_external_eq, hr1] at hr2
    rw [Insert_move_external_eq, hr3] at hr4
    exact ⟨(Except.ok.inj hr2).symm, (Prod.mk.inj (Except.ok.inj hr4)).1.symm⟩

/-- C6 at the full vector `{1,2,3}` of capacity 3, `PushBack(9)` and `Insert(begin()+1, 9)`
with the 9 held outside the vector. -/
theorem C6_growth_policy_witness :
    ∃ r1 r2 r3 r4 p, PushBack (⟨⟨some [1, 2, 3]⟩, 3, 3⟩ : SimpleVector Nat) (.external 9) = .ok r1 ∧
      PushBack_move (⟨⟨some [1, 2, 3]⟩, 3, 3⟩ : SimpleVector Nat) (.external 9) = .ok r2 ∧
      Insert (⟨⟨some [1, 2, 3]⟩, 3, 3⟩ : SimpleVector Nat) 1 (.external 9) = .ok (r3, p) ∧
      Insert_move (⟨⟨some [1, 2, 3]⟩, 3, 3⟩ : SimpleVector Nat) 1 (.external 9) = .ok (r4, p) ∧
      ((⟨⟨some [1, 2, 3]⟩, 3, 3⟩ : SimpleVector Nat).size_ = (⟨⟨some [1, 2, 3]⟩, 3, 3⟩ : SimpleVector Nat).capacity_ →
        r1.capacity_ = max 1 (2 * (⟨⟨some [1, 2, 3]⟩, 3, 3⟩ : SimpleVector Nat).capacity_) ∧
        r2.capacity_ = max 1 (2 * (⟨⟨some [1, 2, 3]⟩, 3, 3⟩ : SimpleVector Nat).capacity_) ∧
        r3.capacity_ = max 1 (2 * (⟨⟨some [1, 2, 3]⟩, 3, 3⟩ : SimpleVector Nat).capacity_) ∧
        r4.capacity_ = max 1 (2 * (⟨⟨some [1, 2, 3]⟩, 3, 3⟩ : SimpleVector Nat).capacity_)) ∧
      ((⟨⟨some [1, 2, 3]⟩, 3, 3⟩ : SimpleVector Nat).size_ < (⟨⟨some [1, 2, 3]⟩, 3, 3⟩ : SimpleVector Nat).capacity_ →
        r1.capacity_ = (⟨⟨some [1, 2, 3]⟩, 3, 3⟩ : SimpleVector Nat).capacity_ ∧ r2.capacity_ = (⟨⟨some [1, 2, 3]⟩, 3, 3⟩ : SimpleVector Nat).capacity_ ∧
        r3.capacity_ = (⟨⟨some [1, 2, 3]⟩, 3, 3⟩ : SimpleVector Nat).capacity_ ∧ r4.capacity_ = (⟨⟨some [1, 2, 3]⟩, 3, 3⟩ : SimpleVector Nat).capacity_) ∧
      (∀ y, (ItemRef.external 9 : ItemRef Nat) = .external y → r2 = r1 ∧ r4 = r3) :=
  C6_growth_policy (⟨⟨some [1, 2, 3]⟩, 3, 3⟩ : SimpleVector Nat) 1 (.external 9) 9 (by decide) (by decide) rfl

/-- C7 as stated fails: a vector built by the reservation constructor with capacity 4 and
one `PushBack` is well formed with size 1 and capacity 4; `Resize(2)` on it returns a
vector of capacity 2, which is less than the capacity before the call. -/
theorem C7_Resize_lowers_capacity :
    PushBack (mk_reserve 4 : SimpleVector Nat) (.external 7) =
      Except.ok ⟨⟨some [7, 0, 0, 0]⟩, 1, 4⟩ ∧
    (⟨⟨some [7, 0, 0, 0]⟩, 1, 4⟩ : SimpleVector Nat).wf ∧
    Resize (⟨⟨some [7, 0, 0, 0]⟩, 1, 4⟩ : SimpleVector Nat) 2 = Except.ok ⟨⟨some [7, 0]⟩, 2, 2⟩ ∧
    ¬ ((⟨⟨some [7, 0, 0, 0]⟩, 1, 4⟩ : SimpleVector Nat).capacity_ ≤
        (⟨⟨some [7, 0]⟩, 2, 2⟩ : SimpleVector Nat).capacity_) := by
  refine ⟨rfl, by decide, rfl, by decide⟩

/-- C7 amended: on a well-formed vector each of `PushBack`, `Insert` (at `k ≤ size`), with
any item that can be read when the member is called, `Erase` (at `k < size`) and
`Reserve(n)` for any `n` returns a vector whose capacity is at least the capacity before
the call, `PopBack` and `Clear` leave the capacity as it was, and `Resize(n)` returns a
vector whose capacity is at least the capacity before the call when `n ≤ size` or
`capacity ≤ n`; for every `n > size`, `Resize(n)` returns a vector of capacity exactly `n`
over a block of exactly `n` slots. -/
theorem C7_capacity_monotone_outside_Resize_gap [Inhabited T] [Zero T] (v : SimpleVector T)
    (hwf : v.wf) :
    (∀ item x, item.read v.simple_vector_ = .ok x →
      ∃ r, PushBack v item = .ok r ∧ v.capacity_ ≤ r.capacity_) ∧
    (∀ item x, item.read v.simple_vector_ = .ok x →
      ∃ r, PushBack_move v item = .ok r ∧ v.capacity_ ≤ r.capacity_) ∧
    (∀ k item x, k ≤ v.size_ → item.read v.simple_vector_ = .ok x →
      ∃ r p, Insert v k item = .ok (r, p) ∧ v.capacity_ ≤ r.capacity_) ∧
    (∀ k item x, k ≤ v.size_ → item.read v.simple_vector_ = .ok x →
      ∃ r p, Insert_move v k item = .ok (r, p) ∧ v.capacity_ ≤ r.capacity_) ∧
    v.capacity_ ≤ (PopBack v).capacity_ ∧
    (∀ k, k < v.size_ → ∃ r p, Erase v k = .ok (r, p) ∧ v.capacity_ ≤ r.capacity_) ∧
    (∀ n, n ≤ v.size_ ∨ v.capacity_ ≤ n →
      ∃ r, Resize v n = .ok r ∧ v.capacity_ ≤ r.capacity_) ∧
    (∀ n, v.size_ < n →
      ∃ r, Resize v n = .ok r ∧ r.capacity_ = n ∧ r.simple_vector_.extent = n) ∧
    (∀ n, ∃ r, Reserve v n = .ok r ∧ v.capacity_ ≤ r.capacity_) ∧
    v.capacity_ ≤ (Clear v).capacity_ := by
  refine ⟨?_, ?_, ?_, ?_, Nat.le_refl _, ?_, ?_, ?_, ?_, Nat.le_refl _⟩
  · intro item x hx
    obtain ⟨r, hr, _, hc, _, _⟩ := PushBack_spec v item x hwf hx
    refine ⟨r, hr, ?_⟩
    rw [hc]
    split_ifs <;> omega
  · intro item x hx
    obtain ⟨r, hr, _, hc, _⟩ := PushBack_move_any v item x hwf hx
    refine ⟨r, hr, ?_⟩
    rw [hc]
    split_ifs <;> omega
  · intro k item x hk hx
    obtain ⟨r, _, hr, _, hc, _, _, _⟩ := Insert_any v k item x hwf hk hx
    refine ⟨r, k, hr, ?_⟩
    rw [hc]
    split_ifs <;> omega
  · intro k item x hk hx
    obtain ⟨r, hr, _, hc, _, _⟩ := Insert_move_any v k item x hwf hk hx
    refine ⟨r, k, hr, ?_⟩
    rw [hc]
    split_ifs <;> omega
  · intro k hk
    obtain ⟨r, hr, _, hc, _, _⟩ := Erase_spec v k hwf hk
    exact ⟨r, k, hr, by omega⟩
  · intro n hn
    by_cases hle : n ≤ v.size_
    · exact ⟨_, Resize_shrink_spec v n hle, Nat.le_refl _⟩
    · obtain ⟨r, hr, _, hc, _, _⟩ := Resize_grow_spec v n hwf (by omega)
      refine ⟨r, hr, ?_⟩
      rcases hn with hn | hn
      · omega
      · omega
  · intro n hn
    obtain ⟨r, hr, _, hc, hrwf, _⟩ := Resize_grow_spec v n hwf hn
    exact ⟨r, hr, hc, by rw [← hrwf.2, hc]⟩
  · intro n
    by_cases hle : n ≤ v.capacity_
    · exact ⟨v, Reserve_noop_spec v n hle, Nat.le_refl _⟩
    · obtain ⟨r, hr, _, hc, _, _⟩ := Reserve_grow_spec v n hwf (by omega)
      exact ⟨r, hr, by omega⟩

/-- C7 amended, at the vector `{7}` of capacity 4. -/
theorem C7_capacity_monotone_outside_Resize_gap_witness :
    (∀ item x, item.read (⟨⟨some [7, 0, 0, 0]⟩, 1, 4⟩ : SimpleVector Nat).simple_vector_ = .ok x →
      ∃ r, PushBack (⟨⟨some [7, 0, 0, 0]⟩, 1, 4⟩ : SimpleVector Nat) item = .ok r ∧
        (⟨⟨some [7, 0, 0, 0]⟩, 1, 4⟩ : SimpleVector Nat).capacity_ ≤ r.capacity_) ∧
    (∀ n, (⟨⟨some [7, 0, 0, 0]⟩, 1, 4⟩ : SimpleVector Nat).size_ < n →
      ∃ r, Resize (⟨⟨some [7, 0, 0, 0]⟩, 1, 4⟩ : SimpleVector Nat) n = .ok r ∧
        r.capacity_ = n ∧ r.simple_vector_.extent = n) :=
  have h := C7_capacity_monotone_outside_Resize_gap
    (⟨⟨some [7, 0, 0, 0]⟩, 1, 4⟩ : SimpleVector Nat) (by decide)
  ⟨h.1, h.2.2.2.2.2.2.2.1⟩

/-- C8: on a well-formed vector of size `s`, for every `n > s`, `Resize(n)` returns a
vector of size `n` in which every index below `s` reads what it read before and every
index in `[s, n)` reads the default value of the element type, and whose capacity is
exactly `n` when `n` exceeds the old capacity. Moreover, for every `k ≤ s`, `Resize(k)`
followed by `Resize(s)` returns a vector of size `s` in which every index below `k` reads
what it read in the original vector. -/
theorem C8_Resize_grows_with_defaults [Inhabited T] (v : SimpleVector T) (n : Nat)
    (hwf : v.wf) (hn : v.size_ < n) :
    (∃ r, Resize v n = .ok r ∧ r.size_ = n ∧
      (∀ i, i < v.size_ → ∃ y, v.index i = .ok y ∧ r.index i = .ok y) ∧
      (∀ i, v.size_ ≤ i → i < n → r.index i = .ok default) ∧
      (v.capacity_ < n → r.capacity_ = n)) ∧
    (∀ k, k ≤ v.size_ → ∃ r1 r2, Resize v k = .ok r1 ∧ Resize r1 v.size_ = .ok r2 ∧
      r2.size_ = v.size_ ∧ ∀ i, i < k → ∃ y, v.index i = .ok y ∧ r2.index i = .ok y) := by
  have hlen : v.toList.length = v.size_ := length_toList (wf_size_le hwf)
  constructor
  · obtain ⟨r, hr, hsz, hc, hrwf, hl⟩ := Resize_grow_spec v n hwf hn
    refine ⟨r, hr, hsz, ?_, ?_, fun _ => hc⟩
    · intro i hi
      apply index_agree (wf_size_le hwf) (wf_size_le hrwf) hi (by omega)
      rw [hl, List.getElem?_append, hlen, if_pos hi]
    · intro i h1 h2
      apply index_eq_ok_of_toList hrwf
      have h3 : ¬ i < v.size_ := by omega
      have h4 : i - v.size_ < n - v.size_ := by omega
      rw [hl, List.getElem?_append, hlen, if_neg h3, List.getElem?_replicate, if_pos h4]
  · intro k hk
    have hwf1 : ({ v with size_ := k } : SimpleVector T).wf :=
      ⟨by have := hwf.1; simp only; omega, hwf.2⟩
    refine ⟨{ v with size_ := k }, ?_⟩
    by_cases hks : v.size_ ≤ k
    · exact ⟨_, Resize_shrink_spec v k hk,
        Resize_shrink_spec ({ v with size_ := k } : SimpleVector T) v.size_ hks, rfl,
        fun i hi => index_agree (wf_size_le hwf) (wf_size_le hwf) (by omega)
          (show i < v.size_ by omega) rfl⟩
    · obtain ⟨r2, hr2, hsz2, _, hwf2, hl2⟩ :=
        Resize_grow_spec ({ v with size_ := k } : SimpleVector T) v.size_ hwf1 (by simp only; omega)
      refine ⟨r2, Resize_shrink_spec v k hk, hr2, hsz2, ?_⟩
      intro i hi
      apply index_agree (wf_size_le hwf) (wf_size_le hwf2) (by omega) (by omega)
      have hlen1 : ({ v with size_ := k } : SimpleVector T).toList.length = k :=
        length_toList (wf_size_le hwf1)
      have hi2 : i < v.size_ := by omega
      rw [hl2, List.getElem?_append, hlen1, if_pos hi, toList_getElem?, toList_getElem?,
        if_pos hi2]
      simp only [if_pos hi]

/-- C8 at the vector `{1,2,3}` of capacity 3 and `Resize(5)`. -/
theorem C8_Resize_grows_with_defaults_witness :
    (∃ r, Resize (⟨⟨some [1, 2, 3]⟩, 3, 3⟩ : SimpleVector Nat) 5 = .ok r ∧ r.size_ = 5 ∧
      (∀ i, i < (⟨⟨some [1, 2, 3]⟩, 3, 3⟩ : SimpleVector Nat).size_ →
        ∃ y, (⟨⟨some [1, 2, 3]⟩, 3, 3⟩ : SimpleVector Nat).index i = .ok y ∧
          r.index i = .ok y) ∧
      (∀ i, (⟨⟨some [1, 2, 3]⟩, 3, 3⟩ : SimpleVector Nat).size_ ≤ i → i < 5 →
        r.index i = .ok default) ∧
      ((⟨⟨some [1, 2, 3]⟩, 3, 3⟩ : SimpleVector Nat).capacity_ < 5 → r.capacity_ = 5)) ∧
    (∀ k, k ≤ (⟨⟨some [1, 2, 3]⟩, 3, 3⟩ : SimpleVector Nat).size_ →
      ∃ r1 r2, Resize (⟨⟨some [1, 2, 3]⟩, 3, 3⟩ : SimpleVector Nat) k = .ok r1 ∧
        Resize r1 (⟨⟨some [1, 2, 3]⟩, 3, 3⟩ : SimpleVector Nat).size_ = .ok r2 ∧
        r2.size_ = (⟨⟨some [1, 2, 3]⟩, 3, 3⟩ : SimpleVector Nat).size_ ∧
        ∀ i, i < k → ∃ y, (⟨⟨some [1, 2, 3]⟩, 3, 3⟩ : SimpleVector Nat).index i = .ok y ∧
          r2.index i = .ok y) :=
  C8_Resize_grows_with_defaults ⟨⟨some [1, 2, 3]⟩, 3, 3⟩ 5 (by decide) (by decide)

/-- C9: on a well-formed vector, for every requested capacity `n`, `Reserve(n)` returns a
vector whose capacity is at least the capacity before, whose size is unchanged and in
which every index below the size reads what it read before; the vector is returned
unchanged when `n ≤ capacity`, and otherwise its capacity is exactly `n`. -/
theorem C9_Reserve_keeps_size_and_elements [Inhabited T] (v : SimpleVector T) (n : Nat)
    (hwf : v.wf) :
    ∃ r, Reserve v n = .ok r ∧ v.capacity_ ≤ r.capacity_ ∧ r.size_ = v.size_ ∧
      (∀ i, i < v.size_ → ∃ y, v.index i = .ok y ∧ r.index i = .ok y) ∧
      (n ≤ v.capacity_ → r = v) ∧
      (v.capacity_ < n → r.capacity_ = n) := by
  by_cases hle : n ≤ v.capacity_
  · refine ⟨v, Reserve_noop_spec v n hle, Nat.le_refl _, rfl, ?_, fun _ => rfl, ?_⟩
    · intro i hi
      exact index_agree (wf_size_le hwf) (wf_size_le hwf) hi hi rfl
    · intro h
      omega
  · obtain ⟨r, hr, hsz, hc, hrwf, hl⟩ := Reserve_grow_spec v n hwf (by omega)
    refine ⟨r, hr, by omega, hsz, ?_, fun h => absurd h hle, fun _ => hc⟩
    intro i hi
    exact index_agree (wf_size_le hwf) (wf_size_le hrwf) hi (by omega) (by rw [hl])

/-- C9 at the vector `{1,2,3}` of capacity 3 and `Reserve(10)`. -/
theorem C9_Reserve_keeps_size_and_elements_witness :
    ∃ r, Reserve (⟨⟨some [1, 2, 3]⟩, 3, 3⟩ : SimpleVector Nat) 10 = .ok r ∧
      (⟨⟨some [1, 2, 3]⟩, 3, 3⟩ : SimpleVector Nat).capacity_ ≤ r.capacity_ ∧
      r.size_ = (⟨⟨some [1, 2, 3]⟩, 3, 3⟩ : SimpleVector Nat).size_ ∧
      (∀ i, i < (⟨⟨some [1, 2, 3]⟩, 3, 3⟩ : SimpleVector Nat).size_ →
        ∃ y, (⟨⟨some [1, 2, 3]⟩, 3, 3⟩ : SimpleVector Nat).index i = .ok y ∧
          r.index i = .ok y) ∧
      (10 ≤ (⟨⟨some [1, 2, 3]⟩, 3, 3⟩ : SimpleVector Nat).capacity_ →
        r = (⟨⟨some [1, 2, 3]⟩, 3, 3⟩ : SimpleVector Nat)) ∧
      ((⟨⟨some [1, 2, 3]⟩, 3, 3⟩ : SimpleVector Nat).capacity_ < 10 → r.capacity_ = 10) :=
  C9_Reserve_keeps_size_and_elements ⟨⟨some [1, 2, 3]⟩, 3, 3⟩ 10 (by decide)

/-- C10: on a well-formed vector, for every index `i`, each overload of `At` fails if and
only if `i ≥ size`, and the failure is then the out-of-range error; when `i < size` both
overloads return the element that unchecked access `[i]` returns. On an empty vector
`At(0)` is the out-of-range error. -/
theorem C10_At_out_of_range_iff (v : SimpleVector T) (i : Nat) (hwf : v.wf) :
    ((∃ e, At v i = .error e) ↔ v.size_ ≤ i) ∧
    ((∃ e, At_const v i = .error e) ↔ v.size_ ≤ i) ∧
    (At v i = .error .out_of_range ↔ v.size_ ≤ i) ∧
    (At_const v i = .error .out_of_range ↔ v.size_ ≤ i) ∧
    (i < v.size_ → ∃ y, At v i = .ok y ∧ At_const v i = .ok y ∧ v.index i = .ok y) ∧
    (v.size_ = 0 → At v 0 = .error .out_of_range ∧ At_const v 0 = .error .out_of_range) := by
  have hge : v.size_ ≤ i → At v i = .error .out_of_range := by
    intro h
    simp only [At, ge_iff_le, if_pos h]
  have hlt : i < v.size_ → ∃ y, At v i = .ok y ∧ v.index i = .ok y := by
    intro h
    obtain ⟨y, _, hy⟩ := index_of_lt (wf_size_le hwf) h
    have hn : ¬ v.size_ ≤ i := by omega
    refine ⟨y, ?_, hy⟩
    simp only [At, ge_iff_le, if_neg hn]
    exact hy
  have hc : At_const v i = At v i := rfl
  have key1 : (∃ e, At v i = .error e) ↔ v.size_ ≤ i := by
    constructor
    · rintro ⟨e, he⟩
      by_contra hcon
      obtain ⟨y, hy, _⟩ := hlt (by omega)
      rw [hy] at he
      cases he
    · intro h
      exact ⟨_, hge h⟩
  have key2 : At v i = .error .out_of_range ↔ v.size_ ≤ i :=
    ⟨fun h => key1.mp ⟨_, h⟩, hge⟩
  refine ⟨key1, by rw [hc]; exact key1, key2, by rw [hc]; exact key2, ?_, ?_⟩
  · intro h
    obtain ⟨y, hy1, hy2⟩ := hlt h
    exact ⟨y, hy1, by rw [hc]; exact hy1, hy2⟩
  · intro hz
    have h0 : At v 0 = .error .out_of_range := by
      simp only [At, ge_iff_le, hz, Nat.le_refl, if_true]
    exact ⟨h0, h0⟩

/-- C10 at scenario 4 of the specification: the empty vector, `At(0)`. -/
theorem C10_At_out_of_range_iff_witness :
    ((∃ e, At (mk_default : SimpleVector Nat) 0 = .error e) ↔
      (mk_default : SimpleVector Nat).size_ ≤ 0) ∧
    ((∃ e, At_const (mk_default : SimpleVector Nat) 0 = .error e) ↔
      (mk_default : SimpleVector Nat).size_ ≤ 0) ∧
    (At (mk_default : SimpleVector Nat) 0 = .error .out_of_range ↔
      (mk_default : SimpleVector Nat).size_ ≤ 0) ∧
    (At_const (mk_default : SimpleVector Nat) 0 = .error .out_of_range ↔
      (mk_default : SimpleVector Nat).size_ ≤ 0) ∧
    (0 < (mk_default : SimpleVector Nat).size_ →
      ∃ y, At (mk_default : SimpleVector Nat) 0 = .ok y ∧
        At_const (mk_default : SimpleVector Nat) 0 = .ok y ∧
        (mk_default : SimpleVector Nat).index 0 = .ok y) ∧
    ((mk_default : SimpleVector Nat).size_ = 0 →
      At (mk_default : SimpleVector Nat) 0 = .error .out_of_range ∧
      At_const (mk_default : SimpleVector Nat) 0 = .error .out_of_range) :=
  C10_At_out_of_range_iff mk_default 0 (by decide)

end SimpleVectorModel

/-! ## Lemmas on the comparison operators -/

namespace SimpleVectorModel
namespace SimpleVector
variable {T : Type}

theorem cons_beq_cons' [BEq T] (x y : T) (xs ys : List T) :
    ((x :: xs) == (y :: ys)) = (x == y && xs == ys) := rfl

theorem beq_eq_false_of_length_ne [BEq T] {xs ys : List T} (h : xs.length ≠ ys.length) :
    (xs == ys) = false := by
  cases hb : (xs == ys)
  · rfl
  · exact absurd (List.length_eq_of_beq hb) h

theorem equal_loop_spec [BEq T] (a b : ArrayPtr T) (n : Nat) :
    ∀ (i j : Nat), i + n ≤ a.cells.length → j + n ≤ b.cells.length →
      equal_loop a i b j n = .ok ((a.cells.drop i).take n == (b.cells.drop j).take n) := by
  induction n with
  | zero =>
    intro i j _ _
    rfl
  | succ n ih =>
    intro i j ha hb
    have h1 : i < a.cells.length := by omega
    have h2 : j < b.cells.length := by omega
    rw [List.drop_eq_getElem_cons h1, List.drop_eq_getElem_cons h2, List.take_succ_cons,
      List.take_succ_cons, cons_beq_cons']
    simp only [equal_loop, ArrayPtr.load_of_lt h1, ArrayPtr.load_of_lt h2, bind, Except.bind]
    cases hxy : (a.cells[i] == b.cells[j])
    · simp [pure, Except.pure]
    · simp only [Bool.not_true, Bool.false_eq_true, if_false, Bool.true_and]
      exact ih (i + 1) (j + 1) (by omega) (by omega)

theorem operator_eq_spec [BEq T] (a b : SimpleVector T) (ha : a.wf) (hb : b.wf) :
    operator_eq a b = .ok (a.toList == b.toList) := by
  have hla := length_toList (wf_size_le ha)
  have hlb := length_toList (wf_size_le hb)
  by_cases hs : a.size_ = b.size_
  · have h0 : ¬ a.GetSize ≠ b.GetSize := by simpa [GetSize] using hs
    simp only [operator_eq, if_neg h0, std_equal, begin_, end_, Nat.zero_le, if_true,
      Nat.sub_zero]
    rw [equal_loop_spec a.simple_vector_ b.simple_vector_ a.size_ 0 0
      (by have := wf_size_le ha; omega) (by have := wf_size_le hb; omega)]
    simp only [List.drop_zero, toList, hs]
  · have h0 : a.GetSize ≠ b.GetSize := by simpa [GetSize] using hs
    simp only [operator_eq, if_pos h0, pure, Except.pure]
    rw [beq_eq_false_of_length_ne (by omega)]

theorem lexicographical_compare_loop_spec [LT T] [DecidableRel (α := T) (· < ·)]
    (a b : ArrayPtr T) (last2 : Nat) (hl : last2 ≤ b.cells.length) (n : Nat) :
    ∀ (i j : Nat), i + n ≤ a.cells.length → j ≤ last2 →
      lexicographical_compare_loop a i b j last2 n =
        .ok (lexLess ((a.cells.drop i).take n) ((b.cells.drop j).take (last2 - j))) := by
  induction n with
  | zero =>
    intro i j _ hj
    simp only [lexicographical_compare_loop, List.take_zero]
    by_cases h : j = last2
    · subst h
      simp [lexLess]
    · have h3 : j < b.cells.length := by omega
      have h4 : last2 - j = (last2 - j - 1) + 1 := by omega
      rw [List.drop_eq_getElem_cons h3, h4, List.take_succ_cons]
      simp [h, lexLess]
  | succ n ih =>
    intro i j ha hj
    have h1 : i < a.cells.length := by omega
    rw [List.drop_eq_getElem_cons h1, List.take_succ_cons]
    by_cases h : j = last2
    · subst h
      simp [lexicographical_compare_loop, lexLess]
    · have h3 : j < b.cells.length := by omega
      have h4 : last2 - j = (last2 - (j + 1)) + 1 := by omega
      rw [List.drop_eq_getElem_cons h3, h4, List.take_succ_cons]
      simp only [lexicographical_compare_loop, if_neg h, ArrayPtr.load_of_lt h1,
        ArrayPtr.load_of_lt h3, bind, Except.bind, lexLess]
      by_cases hxy : a.cells[i] < b.cells[j]
      · simp only [if_pos hxy, pure, Except.pure]
      · simp only [if_neg hxy]
        by_cases hyx : b.cells[j] < a.cells[i]
        · simp only [if_pos hyx, pure, Except.pure]
        · simp only [if_neg hyx]
          exact ih (i + 1) (j + 1) (by omega) (by omega)

theorem operator_lt_spec [LT T] [DecidableRel (α := T) (· < ·)] (a b : SimpleVector T)
    (ha : a.wf) (hb : b.wf) :
    operator_lt a b = .ok (lexLess a.toList b.toList) := by
  simp only [operator_lt, std_lexicographical_compare, begin_, end_, Nat.zero_le, if_true,
    Nat.sub_zero]
  rw [lexicographical_compare_loop_spec a.simple_vector_ b.simple_vector_ b.size_
    (wf_size_le hb) a.size_ 0 0 (by have := wf_size_le ha; omega) (Nat.zero_le _)]
  simp only [List.drop_zero, toList, Nat.sub_zero]

theorem beq_iff_index [BEq T] (xs : List T) :
    ∀ ys : List T, (xs == ys) = true ↔
      xs.length = ys.length ∧
        ∀ (i : Nat) (x y : T), xs[i]? = some x → ys[i]? = some y → (x == y) = true := by
  induction xs with
  | nil =>
    intro ys
    cases ys with
    | nil =>
      constructor
      · intro _
        refine ⟨rfl, ?_⟩
        intro i x y hx _
        simp at hx
      · intro _
        rfl
    | cons y ys =>
      constructor
      · intro h
        cases h
      · rintro ⟨h, _⟩
        simp at h
  | cons x xs ih =>
    intro ys
    cases ys with
    | nil =>
      constructor
      · intro h
        cases h
      · rintro ⟨h, _⟩
        simp at h
    | cons y ys =>
      rw [cons_beq_cons', Bool.and_eq_true, ih ys]
      constructor
      · rintro ⟨hxy, hlen, hrest⟩
        refine ⟨by simp [hlen], ?_⟩
        intro i p q hp hq
        cases i with
        | zero =>
          simp only [List.getElem?_cons_zero, Option.some.injEq] at hp hq
          subst hp hq
          exact hxy
        | succ i =>
          simp only [List.getElem?_cons_succ] at hp hq
          exact hrest i p q hp hq
      · rintro ⟨hlen, hall⟩
        refine ⟨hall 0 x y (List.getElem?_cons_zero) (List.getElem?_cons_zero), by simpa using hlen, ?_⟩
        intro i p q hp hq
        exact hall (i + 1) p q (by simpa using hp) (by simpa using hq)

theorem lexLess_iff_index [LT T] [DecidableRel (α := T) (· < ·)] (xs : List T) :
    ∀ ys : List T, lexLess xs ys = true ↔
      (∃ (i : Nat) (x y : T), xs[i]? = some x ∧ ys[i]? = some y ∧ x < y ∧
        ∀ (j : Nat) (p q : T), j < i → xs[j]? = some p → ys[j]? = some q →
          ¬ p < q ∧ ¬ q < p) ∨
      (xs.length < ys.length ∧
        ∀ (j : Nat) (p q : T), xs[j]? = some p → ys[j]? = some q → ¬ p < q ∧ ¬ q < p) := by
  induction xs with
  | nil =>
    intro ys
    cases ys with
    | nil =>
      constructor
      · intro h
        cases h
      · rintro (⟨i, x, y, hx, _⟩ | ⟨h, _⟩)
        · simp at hx
        · simp at h
    | cons y ys =>
      constructor
      · intro _
        right
        refine ⟨by simp, ?_⟩
        intro j p q hp _
        simp at hp
      · intro _
        rfl
  | cons x xs ih =>
    intro ys
    cases ys with
    | nil =>
      constructor
      · intro h
        cases h
      · rintro (⟨i, p, q, _, hq, _⟩ | ⟨h, _⟩)
        · simp at hq
        · simp at h
    | cons y ys =>
      by_cases hxy : x < y
      · simp only [lexLess, if_pos hxy, true_iff]
        left
        refine ⟨0, x, y, List.getElem?_cons_zero, List.getElem?_cons_zero, hxy, ?_⟩
        intro j p q hj
        omega
      · by_cases hyx : y < x
        · simp only [lexLess, if_neg hxy, if_pos hyx, Bool.false_eq_true, false_iff]
          rintro (⟨i, p, q, hp, hq, hpq, hall⟩ | ⟨_, hall⟩)
          · cases i with
            | zero =>
              simp only [List.getElem?_cons_zero, Option.some.injEq] at hp hq
              subst hp hq
              exact hxy hpq
            | succ i =>
              exact (hall 0 x y (by omega) (List.getElem?_cons_zero) (List.getElem?_cons_zero)).2 hyx
          · exact (hall 0 x y (List.getElem?_cons_zero) (List.getElem?_cons_zero)).2 hyx
        · simp only [lexLess, if_neg hxy, if_neg hyx]
          rw [ih ys]
          constructor
          · rintro (⟨i, p, q, hp, hq, hpq, hall⟩ | ⟨hlen, hall⟩)
            · left
              refine ⟨i + 1, p, q, by simpa using hp, by simpa using hq, hpq, ?_⟩
              intro j p' q' hj hp' hq'
              cases j with
              | zero =>
                simp only [List.getElem?_cons_zero, Option.some.injEq] at hp' hq'
                subst hp' hq'
                exact ⟨hxy, hyx⟩
              | succ j =>
                exact hall j p' q' (by omega) (by simpa using hp') (by simpa using hq')
            · right
              refine ⟨by simpa using hlen, ?_⟩
              intro j p' q' hp' hq'
              cases j with
              | zero =>
                simp only [List.getElem?_cons_zero, Option.some.injEq] at hp' hq'
                subst hp' hq'
                exact ⟨hxy, hyx⟩
              | succ j =>
                exact hall j p' q' (by simpa using hp') (by simpa using hq')
          · rintro (⟨i, p, q, hp, hq, hpq, hall⟩ | ⟨hlen, hall⟩)
            · cases i with
              | zero =>
                simp only [List.getElem?_cons_zero, Option.some.injEq] at hp hq
                subst hp hq
                exact absurd hpq hxy
              | succ i =>
                left
                refine ⟨i, p, q, by simpa using hp, by simpa using hq, hpq, ?_⟩
                intro j p' q' hj hp' hq'
                exact hall (j + 1) p' q' (by omega) (by simpa using hp') (by simpa using hq')
            · right
              refine ⟨by simpa using hlen, ?_⟩
              intro j p' q' hp' hq'
              exact hall (j + 1) p' q' (by simpa using hp') (by simpa using hq')

theorem lexLess_trichotomy [LinearOrder T] (xs : List T) :
    ∀ ys : List T,
      (lexLess xs ys = true ∧ (xs == ys) = false ∧ lexLess ys xs = false) ∨
      (lexLess xs ys = false ∧ (xs == ys) = true ∧ lexLess ys xs = false) ∨
      (lexLess xs ys = false ∧ (xs == ys) = false ∧ lexLess ys xs = true) := by
  induction xs with
  | nil =>
    intro ys
    cases ys with
    | nil => exact Or.inr (Or.inl ⟨rfl, rfl, rfl⟩)
    | cons y ys => exact Or.inl ⟨rfl, rfl, rfl⟩
  | cons x xs ih =>
    intro ys
    cases ys with
    | nil => exact Or.inr (Or.inr ⟨rfl, rfl, rfl⟩)
    | cons y ys =>
      rcases lt_trichotomy x y with h | h | h
      · have h2 : ¬ y < x := not_lt_of_lt h
        have h3 : (x == y) = false := by simpa using ne_of_lt h
        left
        simp only [lexLess, if_pos h, if_neg h2, cons_beq_cons', h3, Bool.false_and, and_self]
      · subst h
        have h2 : ¬ x < x := lt_irrefl x
        simp only [lexLess, if_neg h2, cons_beq_cons', beq_self_eq_true, Bool.true_and]
        exact ih ys
      · have h2 : ¬ x < y := not_lt_of_lt h
        have h3 : (x == y) = false := by simpa using ne_of_gt h
        right; right
        simp only [lexLess, if_pos h, if_neg h2, cons_beq_cons', h3, Bool.false_and, and_self]

theorem index_iff_toList {v : SimpleVector T} (h : v.wf) {i : Nat} (hi : i < v.size_) (x : T) :
    v.index i = .ok x ↔ v.toList[i]? = some x := by
  obtain ⟨y, hy1, hy2⟩ := index_of_lt (wf_size_le h) hi
  rw [hy1, hy2]
  constructor
  · intro e
    cases e
    rfl
  · intro e
    cases e
    rfl

theorem toList_getElem?_lt {v : SimpleVector T} {i : Nat} {x : T} (h : v.toList[i]? = some x) :
    i < v.size_ := by
  by_contra hc
  rw [toList_getElem?, if_neg hc] at h
  cases h

theorem beq_refl_of [BEq T] (hrefl : ∀ x : T, (x == x) = true) (xs : List T) :
    (xs == xs) = true := by
  rw [beq_iff_index]
  refine ⟨rfl, ?_⟩
  intro i x y hx hy
  rw [hx] at hy
  cases hy
  exact hrefl x

theorem beq_symm_of [BEq T] (hsymm : ∀ x y : T, (x == y) = true → (y == x) = true)
    {xs ys : List T} (h : (xs == ys) = true) : (ys == xs) = true := by
  rw [beq_iff_index] at h ⊢
  refine ⟨h.1.symm, ?_⟩
  intro i y x hy hx
  exact hsymm x y (h.2 i x y hx hy)

theorem beq_trans_of [BEq T]
    (htrans : ∀ x y z : T, (x == y) = true → (y == z) = true → (x == z) = true)
    {xs ys zs : List T} (h1 : (xs == ys) = true) (h2 : (ys == zs) = true) :
    (xs == zs) = true := by
  rw [beq_iff_index] at h1 h2 ⊢
  refine ⟨h1.1.trans h2.1, ?_⟩
  intro i x z hx hz
  have hi : i < ys.length := by
    have := (List.getElem?_eq_some.mp hx).1
    omega
  exact htrans x ys[i] z (h1.2 i x ys[i] hx (List.getElem?_eq_getElem hi))
    (h2.2 i ys[i] z (List.getElem?_eq_getElem hi) hz)

theorem mk_copy_spec [Inhabited T] (s : SimpleVector T) (h : s.wf) :
    ∃ r, mk_copy s = .ok r ∧ r.size_ = s.size_ ∧ r.capacity_ = s.capacity_ ∧
      r.simple_vector_.cells = s.toList := by
  have hs := wf_size_le h
  have hal : (ArrayPtr.alloc s.size_ : ArrayPtr T).cells.length = s.size_ := by
    rw [ArrayPtr.cells_alloc, List.length_replicate]
  obtain ⟨c, hc, hcl, hcg⟩ := std_copy_spec s.simple_vector_ 0 s.size_ (ArrayPtr.alloc s.size_) 0
    (by omega) (by omega) (by omega)
  refine ⟨⟨c, s.size_, s.capacity_⟩, ?_, rfl, rfl, ?_⟩
  · simp only [mk_copy, GetSize, begin_, end_, hc, bind, Except.bind, pure, Except.pure,
      ArrayPtr.swap]
  · apply List.ext_getElem?
    intro i
    rw [toList_getElem?]
    simp only
    by_cases hi : i < s.size_
    · have e3 : 0 ≤ i ∧ i < 0 + (s.size_ - 0) := by omega
      have e4 : 0 + (i - 0) = i := by omega
      rw [hcg i, if_pos e3, e4, if_pos hi]
    · rw [if_neg hi]
      exact List.getElem?_eq_none (by omega)

theorem toList_of_cells_eq {r : SimpleVector T} {xs : List T}
    (h : r.simple_vector_.cells = xs) (hs : r.size_ = xs.length) : r.toList = xs := by
  unfold toList
  rw [h, hs, List.take_length]

theorem mk_move_spec [Inhabited T] (s : SimpleVector T) (h : s.wf) :
    ∃ r, mk_move s = .ok (r, { s with size_ := 0 }) ∧ r.size_ = s.size_ ∧
      r.capacity_ = s.size_ ∧ r.simple_vector_.cells = s.toList := by
  have hs := wf_size_le h
  obtain ⟨b, hb, hbc⟩ := mk_size_spec (T := T) s.size_
  have hbl : b.cells.length = s.size_ := by rw [hbc, List.length_replicate]
  obtain ⟨c, hc, hcl, hcg⟩ := std_copy_spec s.simple_vector_ 0 s.size_ b 0
    (by omega) (by omega) (by omega)
  refine ⟨⟨c, s.size_, s.size_⟩, ?_, rfl, rfl, ?_⟩
  · simp only [mk_move, GetSize, hb, std_move, begin_, end_, hc, bind, Except.bind, pure,
      Except.pure, swap, ArrayPtr.swap, mk_default]
  · apply List.ext_getElem?
    intro i
    rw [toList_getElem?]
    simp only
    by_cases hi : i < s.size_
    · have e3 : 0 ≤ i ∧ i < 0 + (s.size_ - 0) := by omega
      have e4 : 0 + (i - 0) = i := by omega
      rw [hcg i, if_pos e3, e4, if_pos hi]
    · rw [if_neg hi]
      exact List.getElem?_eq_none (by omega)

theorem mk_fill_spec [Inhabited T] (n : Nat) (x : T) :
    ∃ b : ArrayPtr T, mk_fill n x = .ok ⟨b, n, n⟩ ∧ b.cells = List.replicate n x := by
  obtain ⟨r, hr, hlen, hget⟩ := fill_loop_spec x n (ArrayPtr.alloc n : ArrayPtr T) 0
    (by rw [ArrayPtr.cells_alloc]; simp)
  refine ⟨r, ?_, ?_⟩
  · simp only [mk_fill, std_fill, Nat.zero_le, if_true, Nat.sub_zero, hr, bind, Except.bind,
      ArrayPtr.swap, pure, Except.pure]
  · apply List.ext_getElem?
    intro i
    rw [hget i, ArrayPtr.cells_alloc, List.getElem?_replicate, List.getElem?_replicate]
    by_cases h : i < n
    · have : 0 ≤ i ∧ i < 0 + n := by omega
      rw [if_pos this, if_pos h]
    · have : ¬ (0 ≤ i ∧ i < 0 + n) := by omega
      rw [if_neg this, if_neg h, if_neg h]

theorem mk_list_spec [Inhabited T] (l : List T) :
    ∃ b : ArrayPtr T, mk_list l = .ok ⟨b, l.length, l.length⟩ ∧ b.cells = l := by
  obtain ⟨r, hr, hlen, hget⟩ := copy_list_loop_spec l (ArrayPtr.alloc l.length : ArrayPtr T) 0
    (by rw [ArrayPtr.cells_alloc]; simp)
  refine ⟨r, ?_, ?_⟩
  · simp only [mk_list, hr, bind, Except.bind, ArrayPtr.swap, pure, Except.pure]
  · apply List.ext_getElem?
    intro i
    rw [hget i, ArrayPtr.cells_alloc, List.getElem?_replicate]
    by_cases h : i < l.length
    · have : 0 ≤ i ∧ i < 0 + l.length := by omega
      rw [if_pos this, Nat.sub_zero]
    · have : ¬ (0 ≤ i ∧ i < 0 + l.length) := by omega
      rw [if_neg this, if_neg h]
      exact (List.getElem?_eq_none (by omega)).symm

theorem PushBack_each_spec [Inhabited T] (vs : List T) :
    ∀ v : SimpleVector T, v.wf →
      ∃ r, PushBack_each v vs = .ok r ∧ r.wf ∧ r.toList = v.toList ++ vs ∧
        r.size_ = v.size_ + vs.length ∧
        (((v.size_ = 0 ∧ v.capacity_ = 0) ∨
            ∃ e, v.capacity_ = 2 ^ e ∧ v.capacity_ < 2 * v.size_) →
          ((r.size_ = 0 ∧ r.capacity_ = 0) ∨
            ∃ e, r.capacity_ = 2 ^ e ∧ r.capacity_ < 2 * r.size_)) := by
  induction vs with
  | nil =>
    intro v hv
    exact ⟨v, rfl, hv, by simp, rfl, fun h => h⟩
  | cons x xs ih =>
    intro v hv
    obtain ⟨v1, hv1, hsz1, hc1, hwf1, hl1⟩ := PushBack_spec v (.external x) x hv rfl
    obtain ⟨r, hr, hrwf, hrl, hrs, hrc⟩ := ih v1 hwf1
    refine ⟨r, ?_, hrwf, ?_, ?_, ?_⟩
    · simp only [PushBack_each, hv1, bind, Except.bind]
      exact hr
    · rw [hrl, hl1]
      simp
    · rw [hrs, hsz1, List.length_cons]
      omega
    · intro hJ
      apply hrc
      right
      rcases hJ with ⟨hz, hcz⟩ | ⟨e, he, hlt⟩
      · refine ⟨0, ?_, ?_⟩
        · rw [hc1, hz, hcz]
          rfl
        · rw [hc1, hsz1, hz, hcz]
          simp
      · by_cases hlt2 : v.size_ < v.capacity_
        · refine ⟨e, ?_, ?_⟩
          · rw [hc1, if_pos hlt2, he]
          · rw [hc1, if_pos hlt2, hsz1]
            omega
        · have hpos : 0 < v.capacity_ := by rw [he]; exact Nat.pos_pow_of_pos _ (by omega)
          have hne : ¬ v.capacity_ = 0 := by omega
          have hle := hv.1
          refine ⟨e + 1, ?_, ?_⟩
          · rw [hc1, if_neg hlt2, if_neg hne, he, pow_succ]
          · rw [hc1, if_neg hlt2, if_neg hne, hsz1]
            omega

end SimpleVector
end SimpleVectorModel

/-! ## The claims on comparison, construction and shrinking -/

namespace SimpleVectorModel

open SimpleVector

variable {T : Type}

/-- C11: for two well-formed vectors `operator==` returns, and returns `true` if and only
if the sizes are equal and `a[i] == b[i]` for every `i < size`; `operator!=` returns the
negation; the result is the same for any other well-formed vectors with the same logical
contents, whatever their capacity and stale slots; and when the element `==` is
reflexive, symmetric or transitive, so is the vector `==`. -/
theorem C11_equality_is_elementwise [BEq T] (a b : SimpleVector T) (ha : a.wf) (hb : b.wf) :
    ∃ r, operator_eq a b = .ok r ∧ operator_ne a b = .ok (!r) ∧
      (r = true ↔ a.size_ = b.size_ ∧
        ∀ i, i < a.size_ → ∃ x y, a.index i = .ok x ∧ b.index i = .ok y ∧ (x == y) = true) ∧
      (∀ a1 b1 : SimpleVector T, a1.wf → b1.wf → a1.toList = a.toList →
        b1.toList = b.toList → operator_eq a1 b1 = .ok r) ∧
      ((∀ x : T, (x == x) = true) → operator_eq a a = .ok true) ∧
      ((∀ x y : T, (x == y) = true → (y == x) = true) →
        r = true → operator_eq b a = .ok true) ∧
      ((∀ x y z : T, (x == y) = true → (y == z) = true → (x == z) = true) →
        ∀ c : SimpleVector T, c.wf → r = true → operator_eq b c = .ok true →
          operator_eq a c = .ok true) := by
  have hla := length_toList (wf_size_le ha)
  have hlb := length_toList (wf_size_le hb)
  refine ⟨a.toList == b.toList, operator_eq_spec a b ha hb, ?_, ?_, ?_, ?_, ?_, ?_⟩
  · simp only [operator_ne, operator_eq_spec a b ha hb, bind, Except.bind, pure, Except.pure]
  · rw [beq_iff_index, hla, hlb]
    constructor
    · rintro ⟨hs, hall⟩
      refine ⟨hs, ?_⟩
      intro i hi
      obtain ⟨x, hx1, hx2⟩ := index_of_lt (wf_size_le ha) hi
      obtain ⟨y, hy1, hy2⟩ := index_of_lt (wf_size_le hb) (show i < b.size_ by omega)
      exact ⟨x, y, hx2, hy2, hall i x y hx1 hy1⟩
    · rintro ⟨hs, hall⟩
      refine ⟨hs, ?_⟩
      intro i x y hx hy
      have hi := toList_getElem?_lt hx
      obtain ⟨p, q, hp, hq, hpq⟩ := hall i hi
      rw [(index_iff_toList ha hi p).mp hp] at hx
      rw [(index_iff_toList hb (show i < b.size_ by omega) q).mp hq] at hy
      cases hx
      cases hy
      exact hpq
  · intro a1 b1 ha1 hb1 e1 e2
    rw [operator_eq_spec a1 b1 ha1 hb1, e1, e2]
  · intro hrefl
    rw [operator_eq_spec a a ha ha, beq_refl_of hrefl]
  · intro hsymm hr
    rw [operator_eq_spec b a hb ha, beq_symm_of hsymm hr]
  · intro htrans c hc hr hbc
    rw [operator_eq_spec b c hb hc] at hbc
    have hbc2 : (b.toList == c.toList) = true := Except.ok.inj hbc
    rw [operator_eq_spec a c ha hc, beq_trans_of htrans hr hbc2]

/-- C11 at `{1,2,3}` held with capacity 4 and a stale fourth slot against `{1,2,3}` held
with capacity 3. -/
theorem C11_equality_is_elementwise_witness :
    ∃ r, operator_eq (⟨⟨some [1, 2, 3, 9]⟩, 3, 4⟩ : SimpleVector Nat) ⟨⟨some [1, 2, 3]⟩, 3, 3⟩
        = .ok r ∧
      operator_ne (⟨⟨some [1, 2, 3, 9]⟩, 3, 4⟩ : SimpleVector Nat) ⟨⟨some [1, 2, 3]⟩, 3, 3⟩
        = .ok (!r) ∧
      (r = true ↔ (⟨⟨some [1, 2, 3, 9]⟩, 3, 4⟩ : SimpleVector Nat).size_ =
          (⟨⟨some [1, 2, 3]⟩, 3, 3⟩ : SimpleVector Nat).size_ ∧
        ∀ i, i < (⟨⟨some [1, 2, 3, 9]⟩, 3, 4⟩ : SimpleVector Nat).size_ →
          ∃ x y, (⟨⟨some [1, 2, 3, 9]⟩, 3, 4⟩ : SimpleVector Nat).index i = .ok x ∧
            (⟨⟨some [1, 2, 3]⟩, 3, 3⟩ : SimpleVector Nat).index i = .ok y ∧
            (x == y) = true) :=
  have h := C11_equality_is_elementwise
    (⟨⟨some [1, 2, 3, 9]⟩, 3, 4⟩ : SimpleVector Nat) ⟨⟨some [1, 2, 3]⟩, 3, 3⟩
    (by decide) (by decide)
  let ⟨r, h1, h2, h3, _⟩ := h
  ⟨r, h1, h2, h3⟩

/-- C12: for two well-formed vectors `operator<` returns, and returns `true` if and only
if either there is an index `i` below both sizes with `a[i] < b[i]` such that at every
earlier index neither element is less than the other, or the size of `a` is smaller than
the size of `b` and at every index of `a` neither element is less than the other; the
result is the same for any other well-formed vectors with the same logical contents,
whatever their capacity and stale slots. -/
theorem C12_less_is_lexicographic [LT T] [DecidableRel (α := T) (· < ·)]
    (a b : SimpleVector T) (ha : a.wf) (hb : b.wf) :
    ∃ r, operator_lt a b = .ok r ∧
      (r = true ↔
        (∃ (i : Nat) (x y : T), i < a.size_ ∧ i < b.size_ ∧
          a.index i = .ok x ∧ b.index i = .ok y ∧ x < y ∧
          ∀ j, j < i → ∃ p q, a.index j = .ok p ∧ b.index j = .ok q ∧ ¬ p < q ∧ ¬ q < p) ∨
        (a.size_ < b.size_ ∧
          ∀ j, j < a.size_ →
            ∃ p q, a.index j = .ok p ∧ b.index j = .ok q ∧ ¬ p < q ∧ ¬ q < p)) ∧
      (∀ a1 b1 : SimpleVector T, a1.wf → b1.wf → a1.toList = a.toList →
        b1.toList = b.toList → operator_lt a1 b1 = .ok r) := by
  have hla := length_toList (wf_size_le ha)
  have hlb := length_toList (wf_size_le hb)
  refine ⟨lexLess a.toList b.toList, operator_lt_spec a b ha hb, ?_, ?_⟩
  · rw [lexLess_iff_index, hla, hlb]
    constructor
    · rintro (⟨i, x, y, hx, hy, hxy, hall⟩ | ⟨hlen, hall⟩)
      · left
        have hi := toList_getElem?_lt hx
        have hi2 := toList_getElem?_lt hy
        refine ⟨i, x, y, hi, hi2, (index_iff_toList ha hi x).mpr hx,
          (index_iff_toList hb hi2 y).mpr hy, hxy, ?_⟩
        intro j hj
        obtain ⟨p, hp1, hp2⟩ := index_of_lt (wf_size_le ha) (show j < a.size_ by omega)
        obtain ⟨q, hq1, hq2⟩ := index_of_lt (wf_size_le hb) (show j < b.size_ by omega)
        exact ⟨p, q, hp2, hq2, hall j p q hj hp1 hq1⟩
      · right
        refine ⟨hlen, ?_⟩
        intro j hj
        obtain ⟨p, hp1, hp2⟩ := index_of_lt (wf_size_le ha) hj
        obtain ⟨q, hq1, hq2⟩ := index_of_lt (wf_size_le hb) (show j < b.size_ by omega)
        exact ⟨p, q, hp2, hq2, hall j p q hp1 hq1⟩
    · rintro (⟨i, x, y, hi, hi2, hx, hy, hxy, hall⟩ | ⟨hlen, hall⟩)
      · left
        refine ⟨i, x, y, (index_iff_toList ha hi x).mp hx, (index_iff_toList hb hi2 y).mp hy,
          hxy, ?_⟩
        intro j p q hj hp hq
        obtain ⟨p1, q1, hp1, hq1, hpq⟩ := hall j hj
        rw [(index_iff_toList ha (show j < a.size_ by omega) p1).mp hp1] at hp
        rw [(index_iff_toList hb (show j < b.size_ by omega) q1).mp hq1] at hq
        cases hp
        cases hq
        exact hpq
      · right
        refine ⟨hlen, ?_⟩
        intro j p q hp hq
        have hj := toList_getElem?_lt hp
        obtain ⟨p1, q1, hp1, hq1, hpq⟩ := hall j hj
        rw [(index_iff_toList ha hj p1).mp hp1] at hp
        rw [(index_iff_toList hb (show j < b.size_ by omega) q1).mp hq1] at hq
        cases hp
        cases hq
        exact hpq
  · intro a1 b1 ha1 hb1 e1 e2
    rw [operator_lt_spec a1 b1 ha1 hb1, e1, e2]

/-- C12 at `{1,2}` held with capacity 4 against `{1,2,3}`: a proper prefix. -/
theorem C12_less_is_lexicographic_witness :
    ∃ r, operator_lt (⟨⟨some [1, 2, 3, 9]⟩, 2, 4⟩ : SimpleVector Nat) ⟨⟨some [1, 2, 3]⟩, 3, 3⟩
        = .ok r ∧
      (∀ a1 b1 : SimpleVector Nat, a1.wf → b1.wf →
        a1.toList = (⟨⟨some [1, 2, 3, 9]⟩, 2, 4⟩ : SimpleVector Nat).toList →
        b1.toList = (⟨⟨some [1, 2, 3]⟩, 3, 3⟩ : SimpleVector Nat).toList →
        operator_lt a1 b1 = .ok r) :=
  have h := C12_less_is_lexicographic
    (⟨⟨some [1, 2, 3, 9]⟩, 2, 4⟩ : SimpleVector Nat) ⟨⟨some [1, 2, 3]⟩, 3, 3⟩
    (by decide) (by decide)
  let ⟨r, h1, _, h3⟩ := h
  ⟨r, h1, h3⟩

/-- C13: from a well-formed source, copy construction returns a vector with the size of
the source and the same logical contents, in which every index below the size reads what
it reads in the source; copy assignment to any target returns the same; and assigning a
vector to itself leaves it as it is. The source is passed by reference to const and is
not among the results of either operation. -/
theorem C13_copy_has_same_contents [Inhabited T] (s : SimpleVector T) (hs : s.wf) :
    (∃ r, mk_copy s = .ok r ∧ r.size_ = s.size_ ∧ r.toList = s.toList ∧
      ∀ i, i < s.size_ → ∃ y, s.index i = .ok y ∧ r.index i = .ok y) ∧
    (∀ t : SimpleVector T, ∃ r, assign t s = .ok r ∧ r.size_ = s.size_ ∧
      r.toList = s.toList ∧
      ∀ i, i < s.size_ → ∃ y, s.index i = .ok y ∧ r.index i = .ok y) ∧
    assign_self s = s := by
  obtain ⟨r, hr, hsz, _, hcells⟩ := mk_copy_spec s hs
  have hlen := length_toList (wf_size_le hs)
  have hl : r.toList = s.toList := toList_of_cells_eq hcells (by omega)
  have hrs : r.size_ ≤ r.simple_vector_.cells.length := by rw [hcells, hlen, hsz]
  have hidx : ∀ i, i < s.size_ → ∃ y, s.index i = .ok y ∧ r.index i = .ok y := by
    intro i hi
    exact index_agree (wf_size_le hs) hrs hi (by omega) (by rw [hl])
  refine ⟨⟨r, hr, hsz, hl, hidx⟩, ?_, rfl⟩
  intro t
  refine ⟨r, ?_, hsz, hl, hidx⟩
  simp only [assign, hr, bind, Except.bind, pure, Except.pure, swap, ArrayPtr.swap]

/-- C13 at the source `{1,2}` held with capacity 4. -/
theorem C13_copy_has_same_contents_witness :
    ∃ r, mk_copy (⟨⟨some [1, 2, 0, 0]⟩, 2, 4⟩ : SimpleVector Nat) = .ok r ∧
      r.size_ = (⟨⟨some [1, 2, 0, 0]⟩, 2, 4⟩ : SimpleVector Nat).size_ ∧
      r.toList = (⟨⟨some [1, 2, 0, 0]⟩, 2, 4⟩ : SimpleVector Nat).toList :=
  have h := C13_copy_has_same_contents (⟨⟨some [1, 2, 0, 0]⟩, 2, 4⟩ : SimpleVector Nat)
    (by decide)
  let ⟨r, h1, h2, h3, _⟩ := h.1
  ⟨r, h1, h2, h3⟩

/-- C14: from a well-formed source, move construction returns a new vector with the old
size of the source and the same logical contents, and leaves the source with size 0 and
`size ≤ capacity`. -/
theorem C14_move_transfers_contents [Inhabited T] (s : SimpleVector T) (hs : s.wf) :
    ∃ r s1, mk_move s = .ok (r, s1) ∧ r.size_ = s.size_ ∧ r.toList = s.toList ∧
      (∀ i, i < s.size_ → ∃ y, s.index i = .ok y ∧ r.index i = .ok y) ∧
      s1.size_ = 0 ∧ s1.toList = [] ∧ s1.size_ ≤ s1.capacity_ := by
  obtain ⟨r, hr, hsz, _, hcells⟩ := mk_move_spec s hs
  have hlen := length_toList (wf_size_le hs)
  have hl : r.toList = s.toList := toList_of_cells_eq hcells (by omega)
  have hrs : r.size_ ≤ r.simple_vector_.cells.length := by rw [hcells, hlen, hsz]
  refine ⟨r, { s with size_ := 0 }, hr, hsz, hl, ?_, rfl, ?_, Nat.zero_le _⟩
  · intro i hi
    exact index_agree (wf_size_le hs) hrs hi (by omega) (by rw [hl])
  · simp [toList]

/-- C14 at the source `{1,2,3}` held with capacity 4. -/
theorem C14_move_transfers_contents_witness :
    ∃ r s1, mk_move (⟨⟨some [1, 2, 3, 9]⟩, 3, 4⟩ : SimpleVector Nat) = .ok (r, s1) ∧
      r.size_ = (⟨⟨some [1, 2, 3, 9]⟩, 3, 4⟩ : SimpleVector Nat).size_ ∧
      r.toList = (⟨⟨some [1, 2, 3, 9]⟩, 3, 4⟩ : SimpleVector Nat).toList ∧
      s1.size_ = 0 :=
  have h := C14_move_transfers_contents (⟨⟨some [1, 2, 3, 9]⟩, 3, 4⟩ : SimpleVector Nat)
    (by decide)
  let ⟨r, s1, h1, h2, h3, _, h5, _⟩ := h
  ⟨r, s1, h1, h2, h3, h5⟩

end SimpleVectorModel

namespace SimpleVectorModel

open SimpleVector

variable {T : Type}

/-- C15: `SimpleVector(n)` returns a vector with `size == capacity == n` whose every
element is the default value; `SimpleVector(n, x)` returns one with `size == capacity == n`
whose every element is `x`; `SimpleVector(l)` for an element list `l` returns one with
`size == capacity == length of l` whose element `i` is the `i`-th element of `l`; and the
default constructor gives `size == capacity == 0`. -/
theorem C15_constructor_postconditions [Inhabited T] (n : Nat) (x : T) (l : List T) :
    (∃ r, mk_size (T := T) n = .ok r ∧ r.size_ = n ∧ r.capacity_ = n ∧
      ∀ i, i < n → r.index i = .ok default) ∧
    (∃ r, mk_fill n x = .ok r ∧ r.size_ = n ∧ r.capacity_ = n ∧
      ∀ i, i < n → r.index i = .ok x) ∧
    (∃ r, mk_list l = .ok r ∧ r.size_ = l.length ∧ r.capacity_ = l.length ∧
      r.toList = l ∧ ∀ i y, l[i]? = some y → r.index i = .ok y) ∧
    ((mk_default : SimpleVector T).size_ = 0 ∧ (mk_default : SimpleVector T).capacity_ = 0) := by
  refine ⟨?_, ?_, ?_, rfl, rfl⟩
  · obtain ⟨b, hb, hbc⟩ := mk_size_spec (T := T) n
    refine ⟨_, hb, rfl, rfl, ?_⟩
    intro i hi
    have hlt : i < b.cells.length := by rw [hbc, List.length_replicate]; exact hi
    have := ArrayPtr.load_of_lt hlt
    simp only [hbc, List.getElem_replicate] at this
    exact this
  · obtain ⟨b, hb, hbc⟩ := mk_fill_spec n x
    refine ⟨_, hb, rfl, rfl, ?_⟩
    intro i hi
    have hlt : i < b.cells.length := by rw [hbc, List.length_replicate]; exact hi
    have := ArrayPtr.load_of_lt hlt
    simp only [hbc, List.getElem_replicate] at this
    exact this
  · obtain ⟨b, hb, hbc⟩ := mk_list_spec l
    have hl : (⟨b, l.length, l.length⟩ : SimpleVector T).toList = l :=
      toList_of_cells_eq hbc rfl
    have hwf : (⟨b, l.length, l.length⟩ : SimpleVector T).wf :=
      ⟨Nat.le_refl _, by simp only [ArrayPtr.extent, hbc]⟩
    refine ⟨_, hb, rfl, rfl, hl, ?_⟩
    intro i y hy
    apply index_eq_ok_of_toList hwf
    rw [hl]
    exact hy

/-- C16 as stated fails for an element type whose `==` is not reflexive: with the value
`nan`, which is not equal to itself, `Clear` on `{1}` followed by `PushBack(nan)` returns
`{nan}`, `PushBack(nan)` on a default-constructed vector returns `{nan}`, and
`operator==` on the two returns `false`. -/
theorem C16_not_equal_when_element_eq_is_not_reflexive :
    (⟨⟨some [MaybeNaN.num 1]⟩, 1, 1⟩ : SimpleVector MaybeNaN).wf ∧
    PushBack_each (Clear (⟨⟨some [MaybeNaN.num 1]⟩, 1, 1⟩ : SimpleVector MaybeNaN))
      [MaybeNaN.nan] = Except.ok ⟨⟨some [MaybeNaN.nan]⟩, 1, 1⟩ ∧
    PushBack_each (mk_default : SimpleVector MaybeNaN) [MaybeNaN.nan] =
      Except.ok ⟨⟨some [MaybeNaN.nan]⟩, 1, 1⟩ ∧
    operator_eq (⟨⟨some [MaybeNaN.nan]⟩, 1, 1⟩ : SimpleVector MaybeNaN)
      ⟨⟨some [MaybeNaN.nan]⟩, 1, 1⟩ = Except.ok false := by
  refine ⟨by decide, rfl, rfl, rfl⟩

/-- C16 amended: for an element type whose `==` is reflexive, a well-formed vector `a` and
a list of values `vs`: `Clear` followed by `PushBack` of each element of `vs` returns a
vector, so does `PushBack` of each element of `vs` on a default-constructed vector,
`operator==` on the two returns `true`, both have size `length of vs` and element `i`
equal to `vs[i]`; and `Clear` sets the size to 0 and leaves the capacity as it was. -/
theorem C16_Clear_then_append_equals_fresh [Inhabited T] [BEq T] (a : SimpleVector T)
    (vs : List T) (ha : a.wf) (hrefl : ∀ x : T, (x == x) = true) :
    (∃ r f, PushBack_each (Clear a) vs = .ok r ∧
      PushBack_each (mk_default : SimpleVector T) vs = .ok f ∧
      operator_eq r f = .ok true ∧
      r.size_ = vs.length ∧ f.size_ = vs.length ∧ r.toList = vs ∧ f.toList = vs ∧
      ∀ i y, vs[i]? = some y → r.index i = .ok y ∧ f.index i = .ok y) ∧
    (Clear a).size_ = 0 ∧ (Clear a).capacity_ = a.capacity_ := by
  have hd : (mk_default : SimpleVector T).wf := ⟨Nat.le_refl _, rfl⟩
  obtain ⟨r, hr, hrwf, hrl, hrs, _⟩ := PushBack_each_spec vs (Clear a) (Clear_wf a ha)
  obtain ⟨f, hf, hfwf, hfl, hfs, _⟩ := PushBack_each_spec vs (mk_default : SimpleVector T) hd
  have hrl2 : r.toList = vs := by
    rw [hrl]
    simp [toList, Clear]
  have hfl2 : f.toList = vs := by
    rw [hfl]
    simp [toList, mk_default]
  refine ⟨⟨r, f, hr, hf, ?_, ?_, ?_, hrl2, hfl2, ?_⟩, rfl, rfl⟩
  · rw [operator_eq_spec r f hrwf hfwf, hrl2, hfl2, beq_refl_of hrefl]
  · rw [hrs]
    simp [Clear]
  · rw [hfs]
    simp [mk_default]
  · intro i y hy
    exact ⟨index_eq_ok_of_toList hrwf (by rw [hrl2]; exact hy),
      index_eq_ok_of_toList hfwf (by rw [hfl2]; exact hy)⟩

/-- C16 amended, at the vector `{1,2,3}` and the values `4, 5`. -/
theorem C16_Clear_then_append_equals_fresh_witness :
    ∃ r f, PushBack_each (Clear (⟨⟨some [1, 2, 3]⟩, 3, 3⟩ : SimpleVector Nat)) [4, 5] = .ok r ∧
      PushBack_each (mk_default : SimpleVector Nat) [4, 5] = .ok f ∧
      operator_eq r f = .ok true ∧ r.toList = [4, 5] ∧ f.toList = [4, 5] :=
  have h := C16_Clear_then_append_equals_fresh (⟨⟨some [1, 2, 3]⟩, 3, 3⟩ : SimpleVector Nat)
    [4, 5] (by decide) (fun x => beq_self_eq_true x)
  let ⟨r, f, h1, h2, h3, _, _, h6, h7, _⟩ := h.1
  ⟨r, f, h1, h2, h3, h6, h7⟩

/-- C17: `PopBack` sets the size to `size - 1` when `size > 0` and returns the vector
unchanged when `size == 0`; `Resize(n)` with `n ≤ size` returns the vector with size `n`;
`Clear` sets the size to 0; and in all three cases the capacity and the owned block, with
every one of its slots, are what they were before the call. -/
theorem C17_shrinking_changes_only_size [Inhabited T] (v : SimpleVector T) :
    (0 < v.size_ → (PopBack v).size_ = v.size_ - 1) ∧
    (v.size_ = 0 → PopBack v = v) ∧
    (PopBack v).capacity_ = v.capacity_ ∧
    (PopBack v).simple_vector_ = v.simple_vector_ ∧
    (∀ n, n ≤ v.size_ → ∃ r, Resize v n = .ok r ∧ r.size_ = n ∧
      r.capacity_ = v.capacity_ ∧ r.simple_vector_ = v.simple_vector_) ∧
    (Clear v).size_ = 0 ∧
    (Clear v).capacity_ = v.capacity_ ∧
    (Clear v).simple_vector_ = v.simple_vector_ := by
  refine ⟨?_, ?_, rfl, rfl, ?_, rfl, rfl, rfl⟩
  · intro h
    have hz : ¬ v.size_ = 0 := by omega
    simp only [PopBack, if_neg hz]
  · intro h
    simp only [PopBack, h, if_true]
    cases v
    simp only at h
    subst h
    rfl
  · intro n hn
    exact ⟨_, Resize_shrink_spec v n hn, rfl, rfl, rfl⟩

/-- C19: for a non-empty list of values, `PushBack` of each of them on a
default-constructed vector returns a vector whose size is the number `n` of values and
whose capacity is the smallest power of two that is at least `n`; its capacity is less
than twice its size. -/
theorem C19_append_only_capacity_is_power_of_two [Inhabited T] (vs : List T)
    (hn : 1 ≤ vs.length) :
    ∃ r e, PushBack_each (mk_default : SimpleVector T) vs = .ok r ∧
      r.size_ = vs.length ∧ r.capacity_ = 2 ^ e ∧ vs.length ≤ 2 ^ e ∧
      (∀ e1, vs.length ≤ 2 ^ e1 → e ≤ e1) ∧
      r.capacity_ = 2 ^ Nat.clog 2 vs.length ∧
      r.capacity_ < 2 * r.size_ := by
  have hd : (mk_default : SimpleVector T).wf := ⟨Nat.le_refl _, rfl⟩
  obtain ⟨r, hr, hrwf, _, hrs, hrc⟩ := PushBack_each_spec vs (mk_default : SimpleVector T) hd
  have hrs2 : r.size_ = vs.length := by
    rw [hrs]
    simp [mk_default]
  rcases hrc (Or.inl ⟨rfl, rfl⟩) with ⟨hz, _⟩ | ⟨e, he, hlt⟩
  · omega
  · have hle : vs.length ≤ 2 ^ e := by
      have := hrwf.1
      omega
    have hmin : ∀ e1, vs.length ≤ 2 ^ e1 → e ≤ e1 := by
      intro e1 h1
      by_contra hcon
      have h2 : e1 + 1 ≤ e := by omega
      have h3 : 2 ^ (e1 + 1) ≤ 2 ^ e := Nat.pow_le_pow_right (by omega) h2
      rw [pow_succ] at h3
      omega
    refine ⟨r, e, hr, hrs2, he, hle, hmin, ?_, hlt⟩
    rw [he]
    congr 1
    apply Nat.le_antisymm
    · exact hmin _ (Nat.le_pow_clog (by omega) _)
    · exact (Nat.le_pow_iff_clog_le (by omega)).mp hle

/-- C19 at the five values `1, 2, 3, 4, 5`. -/
theorem C19_append_only_capacity_is_power_of_two_witness :
    ∃ r e, PushBack_each (mk_default : SimpleVector Nat) [1, 2, 3, 4, 5] = .ok r ∧
      r.size_ = [1, 2, 3, 4, 5].length ∧ r.capacity_ = 2 ^ e ∧
      [1, 2, 3, 4, 5].length ≤ 2 ^ e ∧
      (∀ e1, [1, 2, 3, 4, 5].length ≤ 2 ^ e1 → e ≤ e1) ∧
      r.capacity_ = 2 ^ Nat.clog 2 [1, 2, 3, 4, 5].length ∧
      r.capacity_ < 2 * r.size_ :=
  C19_append_only_capacity_is_power_of_two [1, 2, 3, 4, 5] (by decide)

/-- C20: for an element type with a linear order, whose `==` is equality, and two
well-formed vectors `a` and `b`: the six operators return; exactly one of `a < b`,
`a == b`, `a > b` is `true`; `a <= b` is `true` if and only if `b < a` is `false`; and
`a <= b` returns what `b >= a` returns. -/
theorem C20_comparison_operators_consistent [LinearOrder T] (a b : SimpleVector T)
    (ha : a.wf) (hb : b.wf) :
    ∃ l e g : Bool, operator_lt a b = .ok l ∧ operator_eq a b = .ok e ∧
      operator_gt a b = .ok g ∧ operator_lt b a = .ok g ∧
      operator_ne a b = .ok (!e) ∧
      ((l = true ∧ e = false ∧ g = false) ∨ (l = false ∧ e = true ∧ g = false) ∨
        (l = false ∧ e = false ∧ g = true)) ∧
      (∃ le, operator_le a b = .ok le ∧ le = (l || e) ∧ (le = true ↔ g = false) ∧
        operator_ge b a = .ok le) ∧
      operator_ge a b = .ok (!l) := by
  have hl := operator_lt_spec a b ha hb
  have he := operator_eq_spec a b ha hb
  have hg := operator_lt_spec b a hb ha
  have htri := lexLess_trichotomy a.toList b.toList
  refine ⟨_, _, _, hl, he, hg, hg, ?_, htri, ⟨_, ?_, rfl, ?_, ?_⟩, ?_⟩
  · simp only [operator_ne, he, bind, Except.bind, pure, Except.pure]
  · simp only [operator_le, hl, he, bind, Except.bind, pure, Except.pure]
    cases lexLess a.toList b.toList <;> simp
  · rcases htri with ⟨h1, h2, h3⟩ | ⟨h1, h2, h3⟩ | ⟨h1, h2, h3⟩ <;> simp [h1, h2, h3]
  · simp only [operator_ge, hg, bind, Except.bind, pure, Except.pure]
    rcases htri with ⟨h1, h2, h3⟩ | ⟨h1, h2, h3⟩ | ⟨h1, h2, h3⟩ <;> simp [h1, h2, h3]
  · simp only [operator_ge, hl, bind, Except.bind, pure, Except.pure]

/-- C20 at `{1,2,3}` held with capacity 4 against `{1,2,4}`. -/
theorem C20_comparison_operators_consistent_witness :
    ∃ l e g : Bool,
      operator_lt (⟨⟨some [1, 2, 3, 9]⟩, 3, 4⟩ : SimpleVector Nat) ⟨⟨some [1, 2, 4]⟩, 3, 3⟩
        = .ok l ∧
      operator_eq (⟨⟨some [1, 2, 3, 9]⟩, 3, 4⟩ : SimpleVector Nat) ⟨⟨some [1, 2, 4]⟩, 3, 3⟩
        = .ok e ∧
      operator_gt (⟨⟨some [1, 2, 3, 9]⟩, 3, 4⟩ : SimpleVector Nat) ⟨⟨some [1, 2, 4]⟩, 3, 3⟩
        = .ok g ∧
      ((l = true ∧ e = false ∧ g = false) ∨ (l = false ∧ e = true ∧ g = false) ∨
        (l = false ∧ e = false ∧ g = true)) :=
  have h := C20_comparison_operators_consistent
    (⟨⟨some [1, 2, 3, 9]⟩, 3, 4⟩ : SimpleVector Nat) ⟨⟨some [1, 2, 4]⟩, 3, 3⟩
    (by decide) (by decide)
  let ⟨l, e, g, h1, h2, h3, _, _, h6, _⟩ := h
  ⟨l, e, g, h1, h2, h3, h6⟩

end SimpleVectorModel
